import Mathlib

set_option maxRecDepth 8000

/-!
Verification of the lease subsystem of the Xline repository
(`xline/src/storage/lease_store/mod.rs`).

Embedding conventions: machine integers (`i64`) become `Int`; instants and
durations in seconds become `Nat`, with the monotonic clock passed explicitly
as a `now` parameter; hash maps become association lists whose insert removes
the previous binding; protobuf encode/decode pairs are fused away, so the KV
table maps a `Revision` directly to a `KeyValue`.  The `Lease` record and the
expiry queue live in source files (`lease.rs`, `lease_queue.rs`) that are not
available, so they are modelled from the spec (sections 4.A and 4.B), as are
the external collaborators of section 6 (index, revision service, persistent
storage, watcher channel).
-/

/-- Byte-string user keys (`Vec<u8>`). -/
abbrev Key := List Nat

section AssocList

variable {κ α : Type} [DecidableEq κ]

/-- First-match association-list lookup (`HashMap::get`). -/
def alookup (k : κ) : List (κ × α) → Option α
  | [] => none
  | p :: rest => if p.1 = k then some p.2 else alookup k rest

/-- Remove every binding of `k` (`HashMap::remove`). -/
def aremove (k : κ) : List (κ × α) → List (κ × α)
  | [] => []
  | p :: rest => if p.1 = k then aremove k rest else p :: aremove k rest

/-- Insert, overwriting any previous binding (`HashMap::insert`). -/
def ainsert (k : κ) (v : α) (m : List (κ × α)) : List (κ × α) :=
  (k, v) :: aremove k m

/-- Update the binding of `k` in place (`HashMap::get_mut` plus mutation). -/
def amodify (k : κ) (f : α → α) (m : List (κ × α)) : List (κ × α) :=
  m.map (fun p => if p.1 = k then (p.1, f p.2) else p)

end AssocList

/-- Remove a key from a list of keys (set difference on one element). -/
def keyErase (k : Key) : List Key → List Key
  | [] => []
  | x :: rest => if x = k then keyErase k rest else x :: keyErase k rest

/-- Modelled from the spec: the `Lease` record of sections 3 and 4.A (source
file `lease.rs` is not under `src/`).  `expiry = none` encodes "never";
`keys` keeps the attachment order, which section 5 calls the stored order. -/
structure Lease where
  id : Int
  ttl : Nat
  remainingTtl : Nat
  expiry : Option Nat
  keys : List Key
deriving DecidableEq, Repr

/-- Modelled from the spec: construct with `(id, ttl)`, expiry "never", no
keys; `remaining_ttl` "normally equals ttl" (section 3). -/
def Lease.new (id : Int) (ttl : Nat) : Lease :=
  ⟨id, ttl, ttl, none, []⟩

/-- Modelled from the spec: `refresh(extend)` sets expiry to
`now + ttl + extend` and returns it (section 4.A). -/
def Lease.refresh (l : Lease) (now extend : Nat) : Lease × Nat :=
  ({ l with expiry := some (now + l.ttl + extend) }, now + l.ttl + extend)

/-- Modelled from the spec: `forever()` sets expiry to never (section 4.A). -/
def Lease.forever (l : Lease) : Lease :=
  { l with expiry := none }

/-- Modelled from the spec: `insert_key` adds an attached key (section 4.A). -/
def Lease.insertKey (l : Lease) (k : Key) : Lease :=
  if k ∈ l.keys then l else { l with keys := l.keys ++ [k] }

/-- Modelled from the spec: `remove_key` (section 4.A). -/
def Lease.removeKey (l : Lease) (k : Key) : Lease :=
  { l with keys := keyErase k l.keys }

/-- Modelled from the spec: `expired()` is true iff expiry is finite and
at or before `now` (section 4.A). -/
def Lease.expired (l : Lease) (now : Nat) : Bool :=
  match l.expiry with
  | none => false
  | some e => e ≤ now

/-- Modelled from the spec: the expiry queue of section 4.B (source file
`lease_queue.rs` is not under `src/`): a map from lease id to expiry
instant supporting earliest-expiry peek and pop. -/
abbrev LeaseQueue := List (Int × Nat)

/-- Earliest expiry instant held in the queue. -/
def qmin : LeaseQueue → Option Nat
  | [] => none
  | p :: rest =>
    match qmin rest with
    | none => some p.2
    | some m => some (min p.2 m)

/-- Modelled from the spec: `insert(id, expiry)` overwrites and returns the
prior value if any (section 4.B). -/
def qinsert (q : LeaseQueue) (id : Int) (e : Nat) : Option Nat × LeaseQueue :=
  (alookup id q, ainsert id e q)

/-- Modelled from the spec: `update(id, expiry)` overwrites an existing
entry and is a no-op when absent (section 4.B). -/
def qupdate (q : LeaseQueue) (id : Int) (e : Nat) : Option Nat × LeaseQueue :=
  match alookup id q with
  | none => (none, q)
  | some old => (some old, amodify id (fun _ => e) q)

/-- Modelled from the spec: `peek()` returns the earliest expiry instant
without removing it (section 4.B). -/
def qpeek (q : LeaseQueue) : Option Nat :=
  qmin q

/-- Remove and return the first entry whose expiry equals `m`. -/
def qpopAux (m : Nat) : LeaseQueue → Option Int × LeaseQueue
  | [] => (none, [])
  | p :: rest =>
    if p.2 = m then (some p.1, rest)
    else
      let (r, rest') := qpopAux m rest
      (r, p :: rest')

/-- Modelled from the spec: `pop()` removes and returns the id with the
earliest expiry (section 4.B; tie-breaking is unspecified, we take the
first such entry). -/
def qpop (q : LeaseQueue) : Option Int × LeaseQueue :=
  match qmin q with
  | none => (none, q)
  | some m => qpopAux m q

/-- `LeaseCollection` (source `lease_store/mod.rs`, lines 60-69). -/
structure LeaseCollection where
  lease_map : List (Int × Lease)
  item_map : List (Key × Int)
  expired_queue : LeaseQueue
deriving DecidableEq, Repr

/-- `LeaseCollection::new` (source lines 72-79). -/
def LeaseCollection.new : LeaseCollection :=
  ⟨[], [], []⟩

/-- Max lease ttl (source line 46). -/
def MAX_LEASE_TTL : Int := 9000000000

/-- Min lease ttl (source line 48). -/
def MIN_LEASE_TTL : Int := 1

/-- Loop body of `LeaseCollection::find_expired_leases` (source lines
82-96): pop while the earliest expiry is at or before `now`, keeping
popped ids that are still present in the lease map.  The fuel argument
bounds the number of iterations; it is instantiated with the queue length,
which suffices because every iteration pops one entry. -/
def findExpiredAux (lm : List (Int × Lease)) (now : Nat) :
    Nat → LeaseQueue → List Int × LeaseQueue
  | 0, q => ([], q)
  | fuel + 1, q =>
    match qpeek q with
    | none => ([], q)
    | some e =>
      if e ≤ now then
        match qpop q with
        | (some id, q') =>
          let (rest, qf) := findExpiredAux lm now fuel q'
          (if (alookup id lm).isSome then id :: rest else rest, qf)
        | (none, q') => ([], q')
      else ([], q)

/-- `LeaseCollection::find_expired_leases` (source lines 82-96). -/
def LeaseCollection.find_expired_leases (c : LeaseCollection) (now : Nat) :
    List Int × LeaseCollection :=
  let (res, q) := findExpiredAux c.lease_map now c.expired_queue.length c.expired_queue
  (res, { c with expired_queue := q })

/-- `ExecuteError` constructors used by the lease store. -/
inductive ExecuteError where
  | leaseNotFound (id : Int)
  | leaseAlreadyExists (id : Int)
  | leaseExpired (id : Int)
  | leaseTtlTooLarge (ttl : Int)
  | leaseNotLeader
  | dbError (msg : String)
deriving DecidableEq, Repr

/-- `LeaseCollection::renew` (source lines 98-111). -/
def LeaseCollection.renew (c : LeaseCollection) (lease_id : Int) (now : Nat) :
    Except ExecuteError Int × LeaseCollection :=
  match alookup lease_id c.lease_map with
  | none => (.error (.leaseNotFound lease_id), c)
  | some lease =>
    if lease.expired now then
      (.error (.leaseExpired lease_id), c)
    else
      let (lease', expiry) := lease.refresh now 0
      (.ok (lease'.ttl : Int),
        { c with
            lease_map := amodify lease_id (fun _ => lease') c.lease_map,
            expired_queue := (qupdate c.expired_queue lease_id expiry).2 })

/-- `LeaseCollection::attach` (source lines 113-123). -/
def LeaseCollection.attach (c : LeaseCollection) (lease_id : Int) (key : Key) :
    Except ExecuteError Unit × LeaseCollection :=
  match alookup lease_id c.lease_map with
  | none => (.error (.leaseNotFound lease_id), c)
  | some _ =>
    (.ok (),
      { c with
          lease_map := amodify lease_id (fun l => l.insertKey key) c.lease_map,
          item_map := ainsert key lease_id c.item_map })

/-- `LeaseCollection::detach` (source lines 126-135). -/
def LeaseCollection.detach (c : LeaseCollection) (lease_id : Int) (key : Key) :
    Except ExecuteError Unit × LeaseCollection :=
  match alookup lease_id c.lease_map with
  | none => (.error (.leaseNotFound lease_id), c)
  | some _ =>
    (.ok (),
      { c with
          lease_map := amodify lease_id (fun l => l.removeKey key) c.lease_map,
          item_map := aremove key c.item_map })

/-- `LeaseCollection::contains_lease` (source lines 138-140). -/
def LeaseCollection.containsLease (c : LeaseCollection) (lease_id : Int) : Bool :=
  (alookup lease_id c.lease_map).isSome

/-- Persisted lease record `PbLease`. -/
structure PbLease where
  id : Int
  ttl : Int
  remainingTtl : Int
deriving DecidableEq, Repr

/-- `LeaseCollection::grant` (source lines 143-157): clamp ttl to at least
`MIN_LEASE_TTL`, refresh with zero extension and enqueue when leader,
otherwise mark forever; insert and return the persisted record. -/
def LeaseCollection.grant (c : LeaseCollection) (lease_id ttl : Int)
    (is_leader : Bool) (now : Nat) : PbLease × LeaseCollection :=
  let lease0 := Lease.new lease_id (max ttl MIN_LEASE_TTL).toNat
  let (lease, queue) :=
    if is_leader then
      let (l, expiry) := lease0.refresh now 0
      (l, (qinsert c.expired_queue lease_id expiry).2)
    else
      (lease0.forever, c.expired_queue)
  ({ id := lease.id, ttl := (lease.ttl : Int), remainingTtl := (lease.remainingTtl : Int) },
    { c with lease_map := ainsert lease_id lease c.lease_map, expired_queue := queue })

/-- `LeaseCollection::revoke` (source lines 159-162): removes only the
lease record. -/
def LeaseCollection.revoke (c : LeaseCollection) (lease_id : Int) :
    Option Lease × LeaseCollection :=
  (alookup lease_id c.lease_map, { c with lease_map := aremove lease_id c.lease_map })

/-- `LeaseCollection::demote` (source lines 165-168). -/
def LeaseCollection.demote (c : LeaseCollection) : LeaseCollection :=
  { c with
      lease_map := c.lease_map.map (fun p => (p.1, p.2.forever)),
      expired_queue := [] }

/-- Loop body of `LeaseCollection::promote` (source lines 171-176): refresh
every lease with the given extension and insert its id into the queue. -/
def promoteAux (now extend : Nat) :
    List (Int × Lease) → LeaseQueue → List (Int × Lease) × LeaseQueue
  | [], q => ([], q)
  | p :: rest, q =>
    let (l, expiry) := p.2.refresh now extend
    let (rest', q') := promoteAux now extend rest (qinsert q l.id expiry).2
    ((p.1, l) :: rest', q')

/-- `LeaseCollection::promote` (source lines 171-176). -/
def LeaseCollection.promote (c : LeaseCollection) (now extend : Nat) : LeaseCollection :=
  let (lm, q) := promoteAux now extend c.lease_map c.expired_queue
  { c with lease_map := lm, expired_queue := q }

/-- `LeaseStoreBackend::get_lease` (source lines 385-392): the sentinel 0
means "no lease". -/
def LeaseCollection.get_lease (c : LeaseCollection) (key : Key) : Int :=
  (alookup key c.item_map).getD 0

/-- `LeaseStore::keep_alive` (source lines 318-323): rejected on a
follower, otherwise delegates to `renew`. -/
def keepAlive (is_leader : Bool) (c : LeaseCollection) (lease_id : Int) (now : Nat) :
    Except ExecuteError Int × LeaseCollection :=
  if is_leader then c.renew lease_id now
  else (.error .leaseNotLeader, c)

/-- `Revision` of the key-to-revision index (`crate::storage::Revision`). -/
structure Revision where
  revision : Int
  subRevision : Int
deriving DecidableEq, Repr

/-- The protobuf `KeyValue` record. -/
structure KeyValue where
  key : Key
  value : List Nat
  createRevision : Int
  modRevision : Int
  version : Int
  lease : Int
deriving DecidableEq, Repr

/-- `KeyValue::default()`. -/
def KeyValue.default : KeyValue :=
  ⟨[], [], 0, 0, 0, 0⟩

/-- Watch event kinds. -/
inductive EventType where
  | put
  | delete
deriving DecidableEq, Repr

/-- A watch `Event`. -/
structure Event where
  ty : EventType
  kv : Option KeyValue
  prevKv : Option KeyValue
deriving DecidableEq, Repr

/-- `WriteOp` variants used by the lease store; the encoded payloads are
kept structured (encode/decode fused). -/
inductive WriteOp where
  | putLease (l : PbLease)
  | deleteLease (id : Int)
  | putKeyValue (r : Revision) (kv : KeyValue)
deriving DecidableEq, Repr

/-- `LeaseGrantRequest`. -/
structure LeaseGrantRequest where
  ttl : Int
  id : Int
deriving DecidableEq, Repr

/-- `LeaseRevokeRequest`. -/
structure LeaseRevokeRequest where
  id : Int
deriving DecidableEq, Repr

/-- `ResponseHeader`; only the revision field matters here. -/
structure ResponseHeader where
  revision : Int
deriving DecidableEq, Repr

/-- Modelled from the spec: `gen_header_without_revision` of the header
generator (section 6) produces a header whose revision is left unset (0). -/
def genHeaderWithoutRevision : ResponseHeader :=
  ⟨0⟩

/-- `LeaseGrantResponse`. -/
structure LeaseGrantResponse where
  header : Option ResponseHeader
  id : Int
  ttl : Int
  error : String
deriving DecidableEq, Repr

/-- `handle_lease_grant_request` (source lines 437-457): the execute phase
of LeaseGrant.  It only reads the collection, so the collection is
trivially unchanged on every outcome. -/
def handleLeaseGrantRequest (c : LeaseCollection) (req : LeaseGrantRequest) :
    Except ExecuteError LeaseGrantResponse :=
  if req.id = 0 then .error (.leaseNotFound 0)
  else if MAX_LEASE_TTL < req.ttl then .error (.leaseTtlTooLarge req.ttl)
  else if c.containsLease req.id then .error (.leaseAlreadyExists req.id)
  else .ok { header := some genHeaderWithoutRevision, id := req.id, ttl := req.ttl, error := "" }

/-- The key-to-revision index, abstracted to the live head revision of each
key. -/
abbrev IndexMap := List (Key × Revision)

/-- Modelled from the spec: the index collaborator's
`delete(key, end, revision, sub_revision)` (section 6) returns the
`(prev_revision, delete_revision)` pair for a live key (and removes its live
head); for an absent key it returns no result, which the caller treats as a
panic. -/
def indexDelete (idx : IndexMap) (k : Key) (rev sub : Int) :
    Option (Revision × Revision) × IndexMap :=
  match alookup k idx with
  | none => (none, idx)
  | some prev => (some (prev, ⟨rev, sub⟩), aremove k idx)

/-- The `keys.into_iter().zip(0..)` fold of `sync_lease_revoke_request`
(source lines 535-546): delete each key under increasing sub-revisions,
recording every index call; `none` in the first component models the panic
on a missing result. -/
def indexDeleteAll (idx : IndexMap) (rev : Int) :
    List Key → Int →
      Option (List (Revision × Revision)) × IndexMap × List (Key × Int × Int)
  | [], _ => (some [], idx, [])
  | k :: rest, sub =>
    match indexDelete idx k rev sub with
    | (none, idx') => (none, idx', [(k, rev, sub)])
    | (some pr, idx') =>
      match indexDeleteAll idx' rev rest (sub + 1) with
      | (none, idx'', calls) => (none, idx'', (k, rev, sub) :: calls)
      | (some prs, idx'', calls) => (some (pr :: prs), idx'', (k, rev, sub) :: calls)

/-- The `db.get_values(KV_TABLE, prev_keys)` read plus the length assertion
of source lines 547-557: every previous revision must resolve to a stored
`KeyValue`, otherwise the flatten shortens the list and the
`assert_eq!(prev_kvs.len(), del_revs.len())` panics (modelled as `none`). -/
def kvGetAll (table : List (Revision × KeyValue)) : List Revision → Option (List KeyValue)
  | [] => some []
  | r :: rest =>
    match alookup r table with
    | none => none
    | some kv => (kvGetAll table rest).map (fun l => kv :: l)

/-- The detach loop of `sync_lease_revoke_request` (source lines 558-561):
for each prior key-value, look up its owner via `get_lease` and detach. -/
def detachAll (lc : LeaseCollection) :
    List KeyValue → Except ExecuteError Unit × LeaseCollection
  | [] => (.ok (), lc)
  | kv :: rest =>
    let lid := lc.get_lease kv.key
    match lc.detach lid kv.key with
    | (.ok _, lc') => detachAll lc' rest
    | (.error e, lc') => (.error e, lc')

/-- The tombstone write of source lines 562-573: `PutKeyValue(delete_revision,
del_kv)` where the tombstone has empty value and `mod_revision` equal to the
delete revision's revision number. -/
def tombOf (p : KeyValue × Revision) : WriteOp :=
  WriteOp.putKeyValue p.2 { KeyValue.default with key := p.1.key, modRevision := p.2.revision }

/-- The delete event of source lines 575-590: a new kv carrying the prior
key with `mod_revision = rev`, and `prev_kv` set to the prior key-value. -/
def delEventOf (rev : Int) (prev : KeyValue) : Event :=
  Event.mk EventType.delete (some { KeyValue.default with key := prev.key, modRevision := rev }) (some prev)

/-- The lease store backend state visible to the after-sync path: the
collection, the revision counter, the index, the KV table, the buffered
write operations of the current proposal, the pairs sent on the watcher
channel, and a trace of the index-delete calls issued. -/
structure Backend where
  lc : LeaseCollection
  revision : Int
  index : IndexMap
  kvTable : List (Revision × KeyValue)
  buffer : List WriteOp
  sent : List (Int × List Event)
  indexCalls : List (Key × Int × Int)
deriving DecidableEq, Repr

/-- `sync_lease_revoke_request` (source lines 518-598).  The outer `none`
models a panic (missing index result or count mismatch); otherwise the
result carries the `Result` value together with the state as mutated up to
the point of return. -/
def syncLeaseRevoke (b : Backend) (req : LeaseRevokeRequest) :
    Option (Except ExecuteError Unit × Backend) :=
  let b1 := { b with buffer := b.buffer ++ [WriteOp.deleteLease req.id] }
  match alookup req.id b1.lc.lease_map with
  | none => some (.error (.leaseNotFound req.id), b1)
  | some l =>
    if l.keys.isEmpty then
      some (.ok (), { b1 with lc := (b1.lc.revoke req.id).2 })
    else
      let rev := b1.revision + 1
      let b2 := { b1 with revision := rev }
      match indexDeleteAll b2.index rev l.keys 0 with
      | (none, _, _) => none
      | (some pairs, idx', calls) =>
        let b3 := { b2 with index := idx', indexCalls := b2.indexCalls ++ calls }
        match kvGetAll b3.kvTable (pairs.map (fun pr => pr.1)) with
        | none => none
        | some prevKvs =>
          match detachAll b3.lc prevKvs with
          | (.error e, lc') => some (.error e, { b3 with lc := lc' })
          | (.ok _, lc') =>
            let tombs := (prevKvs.zip (pairs.map (fun pr => pr.2))).map tombOf
            let events := prevKvs.map (delEventOf rev)
            some (.ok (),
              { b3 with
                  lc := (lc'.revoke req.id).2,
                  buffer := b3.buffer ++ tombs,
                  sent := b3.sent ++ [(rev, events)] })

/-- `sync_lease_grant_request` (source lines 495-501): grant on the
collection and buffer the persisted record; the revision counter is not
touched. -/
def syncLeaseGrant (b : Backend) (is_leader : Bool) (now : Nat)
    (req : LeaseGrantRequest) : Backend :=
  let (pb, lc') := b.lc.grant req.id req.ttl is_leader now
  { b with lc := lc', buffer := b.buffer ++ [WriteOp.putLease pb] }

/-- The two request kinds routed through `sync_request`. -/
inductive RequestWrapper where
  | leaseGrantRequest (req : LeaseGrantRequest)
  | leaseRevokeRequest (req : LeaseRevokeRequest)
deriving DecidableEq, Repr

/-- `sync_request` (source lines 474-492): apply the request, then return
the revision counter as read afterwards. -/
def syncRequest (b : Backend) (is_leader : Bool) (now : Nat) :
    RequestWrapper → Option (Except ExecuteError Int × Backend)
  | .leaseGrantRequest req =>
    let b' := syncLeaseGrant b is_leader now req
    some (.ok b'.revision, b')
  | .leaseRevokeRequest req =>
    match syncLeaseRevoke b req with
    | none => none
    | some (.error e, b') => some (.error e, b')
    | some (.ok _, b') => some (.ok b'.revision, b')

/-- The index-delete call trace a revoke of the given keys must produce:
one call per key, all under revision `rev`, with sub-revisions counting up
from `sub`. -/
def subRevCalls (rev sub : Int) : List Key → List (Key × Int × Int)
  | [] => []
  | k :: rest => (k, rev, sub) :: subRevCalls rev (sub + 1) rest

/-- The `(prev_revision, delete_revision)` pairs the index returns for the
given keys when `prevOf` gives each key's live head revision. -/
def pairsOf (prevOf : Key → Revision) (rev sub : Int) :
    List Key → List (Revision × Revision)
  | [] => []
  | k :: rest => (prevOf k, ⟨rev, sub⟩) :: pairsOf prevOf rev (sub + 1) rest

/-- A key can be detached: `item_map` knows its owner and the owner is a
live lease (so `get_lease` followed by `detach` succeeds). -/
def canDetach (lc : LeaseCollection) (k : Key) : Bool :=
  match alookup k lc.item_map with
  | some lid => (alookup lid lc.lease_map).isSome
  | none => false

/-- The collection-level operations of claim C2: grant, revoke, attach,
detach (each `now` given explicitly). -/
inductive LCOp where
  | grantOp (id ttl : Int) (now : Nat)
  | revokeOp (id : Int)
  | attachOp (id : Int) (k : Key)
  | detachOp (id : Int) (k : Key)
deriving DecidableEq, Repr

/-- Apply one collection operation (ignoring the returned values). -/
def stepOp (is_leader : Bool) (c : LeaseCollection) : LCOp → LeaseCollection
  | .grantOp id ttl now => (c.grant id ttl is_leader now).2
  | .revokeOp id => (c.revoke id).2
  | .attachOp id k => (c.attach id k).2
  | .detachOp id k => (c.detach id k).2

/-- The sequential contract of each operation: grant only fresh non-zero
ids (the execute phase rejects id 0 and existing ids); revoke only leases
whose keys were already detached by the caller (section 4.C notes that
purging `item_map` is the caller's responsibility); attach only keys not
currently owned (each key belongs to at most one lease, section 3); detach
only the recorded owner. -/
def preOp (c : LeaseCollection) : LCOp → Bool
  | .grantOp id _ _ => id != 0 && (alookup id c.lease_map).isNone
  | .revokeOp id =>
    match alookup id c.lease_map with
    | some l => l.keys.isEmpty
    | none => false
  | .attachOp id k => (alookup id c.lease_map).isSome && (alookup k c.item_map).isNone
  | .detachOp id k =>
    match alookup k c.item_map with
    | some j => j == id && (alookup id c.lease_map).isSome
    | none => false

/-- Run a sequence of collection operations. -/
def runOps (is_leader : Bool) (c : LeaseCollection) : List LCOp → LeaseCollection
  | [] => c
  | op :: rest => runOps is_leader (stepOp is_leader c op) rest

/-- All preconditions hold along the run. -/
def opsOk (is_leader : Bool) (c : LeaseCollection) : List LCOp → Bool
  | [] => true
  | op :: rest => preOp c op && opsOk is_leader (stepOp is_leader c op) rest

/-- The invariants of section 3 as they actually hold on the code:
representation well-formedness of the three maps, non-zero ids (1), the
reverse index is sound (2) and complete (3), every finitely-expiring lease
is enqueued (the direction of 4 the code maintains), and every finite
expiry was produced by a refresh, hence lies at least `ttl` beyond some
instant (5). -/
structure InvLC (c : LeaseCollection) : Prop where
  nk_lm : (c.lease_map.map (fun p => p.1)).Nodup
  nk_im : (c.item_map.map (fun p => p.1)).Nodup
  nk_q : (c.expired_queue.map (fun p => p.1)).Nodup
  inv1 : ∀ p ∈ c.lease_map, p.1 ≠ 0
  inv2 : ∀ p ∈ c.item_map, ∃ l, alookup p.2 c.lease_map = some l ∧ p.1 ∈ l.keys
  inv3 : ∀ p ∈ c.lease_map, ∀ k ∈ p.2.keys, alookup k c.item_map = some p.1
  inv4 : ∀ p ∈ c.lease_map, p.2.expiry.isSome → (alookup p.1 c.expired_queue).isSome
  inv5 : ∀ p ∈ c.lease_map, ∀ e, p.2.expiry = some e → ∃ t, e = t + p.2.ttl

/-- Invariant 6 of section 3: on a follower every lease has expiry "never"
and the expiry queue is empty. -/
def FollowerInv (c : LeaseCollection) : Prop :=
  (∀ p ∈ c.lease_map, p.2.expiry = none) ∧ c.expired_queue = []

section AssocLemmas

variable {κ α : Type} [DecidableEq κ]

theorem alookup_eq_none {k : κ} {m : List (κ × α)} :
    alookup k m = none ↔ ∀ p ∈ m, p.1 ≠ k := by
  induction m with
  | nil => simp [alookup]
  | cons p rest ih =>
    by_cases h : p.1 = k
    · simp [alookup, h]
    · simp [alookup, h, ih]

theorem alookup_mem {k : κ} {v : α} {m : List (κ × α)}
    (h : alookup k m = some v) : (k, v) ∈ m := by
  induction m with
  | nil => simp [alookup] at h
  | cons p rest ih =>
    rw [alookup] at h
    by_cases hp : p.1 = k
    · rw [if_pos hp] at h
      injection h with h
      have hpv : (k, v) = p := by
        cases p
        simp only [Prod.mk.injEq]
        exact ⟨hp.symm, h.symm⟩
      exact List.mem_cons.mpr (Or.inl hpv)
    · rw [if_neg hp] at h
      exact List.mem_cons_of_mem _ (ih h)

theorem mem_alookup_isSome {k : κ} {v : α} {m : List (κ × α)}
    (h : (k, v) ∈ m) : (alookup k m).isSome := by
  induction m with
  | nil => simp at h
  | cons p rest ih =>
    rcases List.mem_cons.mp h with h | h
    · simp [alookup, ← h]
    · by_cases hp : p.1 = k
      · simp [alookup, hp]
      · simpa [alookup, hp] using ih h

theorem aremove_eq_self {k : κ} {m : List (κ × α)}
    (h : alookup k m = none) : aremove k m = m := by
  induction m with
  | nil => rfl
  | cons p rest ih =>
    by_cases hp : p.1 = k
    · simp [alookup, hp] at h
    · simp [alookup, hp] at h
      simp [aremove, hp, ih h]

theorem mem_aremove_iff {k : κ} {p : κ × α} {m : List (κ × α)} :
    p ∈ aremove k m ↔ p ∈ m ∧ p.1 ≠ k := by
  induction m with
  | nil => simp [aremove]
  | cons q rest ih =>
    by_cases hq : q.1 = k
    · rw [aremove, if_pos hq, ih, List.mem_cons]
      constructor
      · rintro ⟨h1, h2⟩
        exact ⟨Or.inr h1, h2⟩
      · rintro ⟨h1 | h1, h2⟩
        · rw [h1] at h2; exact absurd hq h2
        · exact ⟨h1, h2⟩
    · rw [aremove, if_neg hq, List.mem_cons, List.mem_cons, ih]
      constructor
      · rintro (h1 | ⟨h1, h2⟩)
        · rw [h1]; exact ⟨Or.inl rfl, hq⟩
        · exact ⟨Or.inr h1, h2⟩
      · rintro ⟨h1 | h1, h2⟩
        · exact Or.inl h1
        · exact Or.inr ⟨h1, h2⟩

theorem alookup_aremove_self {k : κ} {m : List (κ × α)} :
    alookup k (aremove k m) = none := by
  rw [alookup_eq_none]
  intro p hp
  exact (mem_aremove_iff.mp hp).2

theorem alookup_aremove_ne {k k' : κ} {m : List (κ × α)} (h : k' ≠ k) :
    alookup k' (aremove k m) = alookup k' m := by
  have hkk' : ¬ k = k' := fun hh => h hh.symm
  induction m with
  | nil => rfl
  | cons p rest ih =>
    by_cases hp : p.1 = k
    · simp [aremove, hp, alookup, hkk', ih]
    · by_cases hp' : p.1 = k'
      · simp [aremove, hp, alookup, hp', h]
      · simp [aremove, hp, alookup, hp', ih]

theorem alookup_ainsert_self {k : κ} {v : α} {m : List (κ × α)} :
    alookup k (ainsert k v m) = some v := by
  simp [ainsert, alookup]

theorem alookup_ainsert_ne {k k' : κ} {v : α} {m : List (κ × α)} (h : k' ≠ k) :
    alookup k' (ainsert k v m) = alookup k' m := by
  have : k ≠ k' := fun hh => h hh.symm
  simp [ainsert, alookup, this, alookup_aremove_ne h]

theorem alookup_amodify_self {k : κ} {f : α → α} {m : List (κ × α)} :
    alookup k (amodify k f m) = (alookup k m).map f := by
  induction m with
  | nil => rfl
  | cons p rest ih =>
    by_cases hp : p.1 = k
    · simp [amodify, alookup, hp]
    · simp [amodify, alookup, hp] at ih ⊢
      exact ih

theorem alookup_amodify_ne {k k' : κ} {f : α → α} {m : List (κ × α)} (h : k' ≠ k) :
    alookup k' (amodify k f m) = alookup k' m := by
  have hkk' : ¬ k = k' := fun hh => h hh.symm
  induction m with
  | nil => rfl
  | cons p rest ih =>
    simp only [amodify, List.map_cons] at ih ⊢
    by_cases hp : p.1 = k
    · simp [alookup, hp, hkk', ih]
    · by_cases hp' : p.1 = k'
      · simp [alookup, hp, hp', h]
      · simp [alookup, hp, hp', ih]

theorem map_fst_amodify {k : κ} {f : α → α} {m : List (κ × α)} :
    (amodify k f m).map (fun p => p.1) = m.map (fun p => p.1) := by
  induction m with
  | nil => rfl
  | cons p rest ih =>
    by_cases hp : p.1 = k
    · simp [amodify, hp] at ih ⊢
      exact ih
    · simp [amodify, hp] at ih ⊢
      exact ih

theorem map_fst_aremove_sublist {k : κ} {m : List (κ × α)} :
    ((aremove k m).map (fun p => p.1)).Sublist (m.map (fun p => p.1)) := by
  induction m with
  | nil => simp [aremove]
  | cons p rest ih =>
    by_cases hp : p.1 = k
    · rw [aremove, if_pos hp]
      exact ih.trans (List.sublist_cons_self _ _)
    · rw [aremove, if_neg hp]
      simpa using ih.cons₂ p.1

theorem mem_amodify {k : κ} {f : α → α} {p : κ × α} {m : List (κ × α)}
    (h : p ∈ amodify k f m) :
    ∃ q ∈ m, p = if q.1 = k then (q.1, f q.2) else q := by
  rw [amodify, List.mem_map] at h
  rcases h with ⟨q, hq, hpq⟩
  exact ⟨q, hq, hpq.symm⟩

end AssocLemmas

section MoreAssoc

variable {κ α : Type} [DecidableEq κ]

theorem alookup_isSome_iff {k : κ} {m : List (κ × α)} :
    (alookup k m).isSome ↔ ∃ p ∈ m, p.1 = k := by
  induction m with
  | nil => simp [alookup]
  | cons p rest ih =>
    by_cases hp : p.1 = k
    · simp [alookup, hp]
    · simp only [alookup, if_neg hp, ih, List.mem_cons]
      constructor
      · rintro ⟨q, hq, hqk⟩
        exact ⟨q, Or.inr hq, hqk⟩
      · rintro ⟨q, hq | hq, hqk⟩
        · rw [hq] at hqk; exact absurd hqk hp
        · exact ⟨q, hq, hqk⟩

theorem aremove_idem {k : κ} {m : List (κ × α)} :
    aremove k (aremove k m) = aremove k m :=
  aremove_eq_self alookup_aremove_self

theorem aremove_ainsert_self {k : κ} {v : α} {m : List (κ × α)} :
    aremove k (ainsert k v m) = aremove k m := by
  show aremove k ((k, v) :: aremove k m) = aremove k m
  rw [aremove, if_pos rfl]
  exact aremove_idem

end MoreAssoc

/-- Claim C3 counterexample: from the empty collection, grant id 1 with
ttl 10 as leader at instant 0, then revoke id 1.  The resulting state is
not the empty collection again: the expiry-queue entry inserted by the
grant survives the revoke (revoke removes only the lease record, source
lines 159-162). -/
theorem grant_revoke_cex :
    (((LeaseCollection.new.grant 1 10 true 0).2.revoke 1).2) ≠ LeaseCollection.new := by
  decide

/-- Claim C3 (amended): grant of a fresh id followed by revoke of that id
restores `lease_map` and `item_map`; the whole state (including the expiry
queue) is restored when `is_leader` is false, while a leader grant leaves
the id's queue entry behind. -/
theorem grant_revoke_restores (c : LeaseCollection) (id ttl : Int)
    (is_leader : Bool) (now : Nat)
    (h : alookup id c.lease_map = none) :
    ((((c.grant id ttl is_leader now).2.revoke id).2).lease_map = c.lease_map) ∧
    ((((c.grant id ttl is_leader now).2.revoke id).2).item_map = c.item_map) ∧
    (is_leader = false → (((c.grant id ttl is_leader now).2.revoke id).2) = c) := by
  have hrm : aremove id c.lease_map = c.lease_map := aremove_eq_self h
  obtain ⟨lm, im, q⟩ := c
  simp only [alookup] at h
  have hrm' : aremove id lm = lm := hrm
  cases is_leader
  · refine ⟨?_, rfl, ?_⟩
    · simp [LeaseCollection.grant, LeaseCollection.revoke, aremove_ainsert_self, hrm']
    · intro _
      simp [LeaseCollection.grant, LeaseCollection.revoke, aremove_ainsert_self, hrm']
  · refine ⟨?_, rfl, ?_⟩
    · simp [LeaseCollection.grant, LeaseCollection.revoke, aremove_ainsert_self, hrm']
    · intro hfalse
      exact absurd hfalse (by simp)

/-- Claim C3 witness: the amended statement applied at a concrete fresh
grant and revoke on the empty collection on a follower. -/
theorem grant_revoke_restores_witness :
    (((LeaseCollection.new.grant 1 10 false 0).2.revoke 1).2) = LeaseCollection.new :=
  (grant_revoke_restores LeaseCollection.new 1 10 false 0 (by decide)).2.2 rfl

/-- Claim C5: the execute phase of LeaseGrant rejects id 0 with
lease-not-found(0), rejects ttl above `MAX_LEASE_TTL` with
lease-ttl-too-large, rejects an existing id with lease-already-exists, and
otherwise succeeds echoing id and ttl under a header without revision.
`handleLeaseGrantRequest` only reads the collection, so the collection is
unchanged on every failure by construction. -/
theorem grant_execute_checks (c : LeaseCollection) (req : LeaseGrantRequest) :
    (req.id = 0 → handleLeaseGrantRequest c req = .error (.leaseNotFound 0)) ∧
    (req.id ≠ 0 → MAX_LEASE_TTL < req.ttl →
      handleLeaseGrantRequest c req = .error (.leaseTtlTooLarge req.ttl)) ∧
    (req.id ≠ 0 → req.ttl ≤ MAX_LEASE_TTL → (alookup req.id c.lease_map).isSome →
      handleLeaseGrantRequest c req = .error (.leaseAlreadyExists req.id)) ∧
    (req.id ≠ 0 → req.ttl ≤ MAX_LEASE_TTL → alookup req.id c.lease_map = none →
      handleLeaseGrantRequest c req =
        .ok { header := some genHeaderWithoutRevision, id := req.id, ttl := req.ttl,
              error := "" }) := by
  refine ⟨?_, ?_, ?_, ?_⟩
  · intro h0
    simp [handleLeaseGrantRequest, h0]
  · intro h0 httl
    simp [handleLeaseGrantRequest, h0, httl]
  · intro h0 httl hmem
    simp [handleLeaseGrantRequest, h0, not_lt.mpr httl, LeaseCollection.containsLease, hmem]
  · intro h0 httl habs
    simp [handleLeaseGrantRequest, h0, not_lt.mpr httl, LeaseCollection.containsLease, habs]

/-- Claim C5 witness: the four outcomes at concrete inputs. -/
theorem grant_execute_checks_witness :
    handleLeaseGrantRequest LeaseCollection.new ⟨5, 0⟩ = .error (.leaseNotFound 0) ∧
    handleLeaseGrantRequest LeaseCollection.new ⟨9000000001, 1⟩ =
      .error (.leaseTtlTooLarge 9000000001) ∧
    handleLeaseGrantRequest ⟨[(1, Lease.new 1 10)], [], []⟩ ⟨5, 1⟩ =
      .error (.leaseAlreadyExists 1) ∧
    handleLeaseGrantRequest LeaseCollection.new ⟨5, 1⟩ =
      .ok { header := some genHeaderWithoutRevision, id := 1, ttl := 5, error := "" } := by
  refine ⟨?_, ?_, ?_, ?_⟩
  · exact (grant_execute_checks LeaseCollection.new ⟨5, 0⟩).1 rfl
  · exact (grant_execute_checks LeaseCollection.new ⟨9000000001, 1⟩).2.1 (by decide) (by decide)
  · exact (grant_execute_checks ⟨[(1, Lease.new 1 10)], [], []⟩ ⟨5, 1⟩).2.2.1 (by decide)
      (by decide) (by decide)
  · exact (grant_execute_checks LeaseCollection.new ⟨5, 1⟩).2.2.2 (by decide) (by decide)
      (by decide)

/-- Claim C4: a grant whose requested ttl `t` satisfies
`0 ≤ t < MIN_LEASE_TTL` and passes the execute checks stores (via the
after-sync grant) a lease whose ttl is clamped to `MIN_LEASE_TTL = 1`
second, while the execute-phase response echoes the original `t`. -/
theorem grant_ttl_clamped (b : Backend) (is_leader : Bool) (now : Nat) (id t : Int)
    (hid : id ≠ 0) (habs : alookup id b.lc.lease_map = none)
    (h0 : 0 ≤ t) (h1 : t < MIN_LEASE_TTL) :
    handleLeaseGrantRequest b.lc ⟨t, id⟩ =
      .ok { header := some genHeaderWithoutRevision, id := id, ttl := t, error := "" } ∧
    ∃ l, alookup id (syncLeaseGrant b is_leader now ⟨t, id⟩).lc.lease_map = some l ∧
      l.ttl = 1 := by
  constructor
  · have hMAX : t ≤ MAX_LEASE_TTL := by
      unfold MIN_LEASE_TTL at h1
      unfold MAX_LEASE_TTL
      omega
    exact (grant_execute_checks b.lc ⟨t, id⟩).2.2.2 hid hMAX habs
  · have hmax : max t MIN_LEASE_TTL = 1 := by
      unfold MIN_LEASE_TTL at h1 ⊢
      omega
    cases is_leader
    · refine ⟨(Lease.new id (max t MIN_LEASE_TTL).toNat).forever, ?_, ?_⟩
      · simp [syncLeaseGrant, LeaseCollection.grant, alookup_ainsert_self]
      · simp [Lease.forever, Lease.new, hmax]
    · refine ⟨((Lease.new id (max t MIN_LEASE_TTL).toNat).refresh now 0).1, ?_, ?_⟩
      · simp [syncLeaseGrant, LeaseCollection.grant, alookup_ainsert_self]
      · simp [Lease.refresh, Lease.new, hmax]

/-- Claim C4 witness: granting ttl 0 to fresh id 1 echoes 0 in the execute
response and stores a lease with ttl 1. -/
theorem grant_ttl_clamped_witness :
    handleLeaseGrantRequest (Backend.mk LeaseCollection.new 0 [] [] [] [] []).lc ⟨0, 1⟩ =
      .ok { header := some genHeaderWithoutRevision, id := 1, ttl := 0, error := "" } ∧
    ∃ l, alookup 1 (syncLeaseGrant (Backend.mk LeaseCollection.new 0 [] [] [] [] [])
        true 0 ⟨0, 1⟩).lc.lease_map = some l ∧ l.ttl = 1 :=
  grant_ttl_clamped (Backend.mk LeaseCollection.new 0 [] [] [] [] []) true 0 1 0
    (by decide) (by decide) (by decide) (by decide)

/-- Claim C7: keep-alive on a follower fails with lease-not-leader leaving
the collection untouched; on the leader it delegates to renew, which fails
with lease-not-found for an absent id, fails with lease-expired for a
lapsed lease, and otherwise refreshes with zero extension (expiry becomes
`now + ttl`), overwrites the queue entry, and returns the ttl in whole
seconds. -/
theorem keep_alive_spec (is_leader : Bool) (c : LeaseCollection) (id : Int) (now : Nat) :
    (is_leader = false → keepAlive is_leader c id now = (.error .leaseNotLeader, c)) ∧
    (is_leader = true → alookup id c.lease_map = none →
      keepAlive is_leader c id now = (.error (.leaseNotFound id), c)) ∧
    (∀ l, is_leader = true → alookup id c.lease_map = some l → l.expired now = true →
      keepAlive is_leader c id now = (.error (.leaseExpired id), c)) ∧
    (∀ l, is_leader = true → alookup id c.lease_map = some l → l.expired now = false →
      (keepAlive is_leader c id now).1 = .ok (l.ttl : Int) ∧
      alookup id (keepAlive is_leader c id now).2.lease_map =
        some { l with expiry := some (now + l.ttl) } ∧
      ((alookup id c.expired_queue).isSome →
        alookup id (keepAlive is_leader c id now).2.expired_queue =
          some (now + l.ttl))) := by
  refine ⟨?_, ?_, ?_, ?_⟩
  · intro hf
    simp [keepAlive, hf]
  · intro ht habs
    simp [keepAlive, ht, LeaseCollection.renew, habs]
  · intro l ht hl hexp
    simp [keepAlive, ht, LeaseCollection.renew, hl, hexp]
  · intro l ht hl hexp
    refine ⟨?_, ?_, ?_⟩
    · simp [keepAlive, ht, LeaseCollection.renew, hl, hexp, Lease.refresh]
    · simp [keepAlive, ht, LeaseCollection.renew, hl, hexp, Lease.refresh,
        alookup_amodify_self]
    · intro hq
      obtain ⟨e0, he0⟩ := Option.isSome_iff_exists.mp hq
      simp [keepAlive, ht, LeaseCollection.renew, hl, hexp, Lease.refresh, qupdate, he0,
        alookup_amodify_self]

/-- Claim C7 witness: the follower rejection and a successful leader renew
at concrete inputs. -/
theorem keep_alive_spec_witness :
    keepAlive false ⟨[(1, Lease.new 1 10)], [], []⟩ 1 0 =
      (.error .leaseNotLeader, ⟨[(1, Lease.new 1 10)], [], []⟩) ∧
    (keepAlive true ⟨[(1, ⟨1, 10, 10, some 5, []⟩)], [], [(1, 5)]⟩ 1 2).1 =
      .ok ((10 : Nat) : Int) := by
  constructor
  · exact (keep_alive_spec false ⟨[(1, Lease.new 1 10)], [], []⟩ 1 0).1 rfl
  · exact ((keep_alive_spec true ⟨[(1, ⟨1, 10, 10, some 5, []⟩)], [], [(1, 5)]⟩ 1 2).2.2.2
      ⟨1, 10, 10, some 5, []⟩ rfl (by decide) (by decide)).1

theorem alookup_isSome_iff_mem_map {κ α : Type} [DecidableEq κ] {k : κ}
    {m : List (κ × α)} :
    (alookup k m).isSome ↔ k ∈ m.map (fun p => p.1) := by
  rw [alookup_isSome_iff, List.mem_map]

theorem alookup_isSome_map_fst {κ α β : Type} [DecidableEq κ] {k : κ}
    {m : List (κ × α)} (g : κ × α → κ × β) (hg : ∀ p, (g p).1 = p.1) :
    (alookup k (m.map g)).isSome ↔ (alookup k m).isSome := by
  rw [alookup_isSome_iff, alookup_isSome_iff]
  constructor
  · rintro ⟨p, hp, hk⟩
    rcases List.mem_map.mp hp with ⟨q, hq, hgq⟩
    refine ⟨q, hq, ?_⟩
    rw [← hgq] at hk
    rw [← hg q]
    exact hk
  · rintro ⟨q, hq, hk⟩
    refine ⟨g q, List.mem_map.mpr ⟨q, hq, rfl⟩, ?_⟩
    rw [hg q]
    exact hk

theorem promoteAux_fst (now d : Nat) (entries : List (Int × Lease)) (q0 : LeaseQueue) :
    (promoteAux now d entries q0).1 =
      entries.map (fun p => (p.1, { p.2 with expiry := some (now + p.2.ttl + d) })) := by
  induction entries generalizing q0 with
  | nil => rfl
  | cons p rest ih =>
    simp [promoteAux, Lease.refresh, ih]

theorem promoteAux_snd (now d : Nat) (entries : List (Int × Lease)) (q0 : LeaseQueue)
    (id : Int) :
    (alookup id (promoteAux now d entries q0).2).isSome ↔
      (∃ p ∈ entries, p.2.id = id) ∨ (alookup id q0).isSome := by
  induction entries generalizing q0 with
  | nil => simp [promoteAux]
  | cons p rest ih =>
    have hstep : (promoteAux now d (p :: rest) q0).2 =
        (promoteAux now d rest (ainsert p.2.id (now + p.2.ttl + d) q0)).2 := by
      simp [promoteAux, Lease.refresh, qinsert]
    rw [hstep, ih]
    by_cases hid : id = p.2.id
    · constructor
      · intro _
        exact Or.inl ⟨p, List.mem_cons_self _ _, hid.symm⟩
      · intro _
        refine Or.inr ?_
        rw [hid, alookup_ainsert_self]
        rfl
    · have hne : p.2.id ≠ id := fun hh => hid hh.symm
      rw [alookup_ainsert_ne (fun hh => hid hh)]
      constructor
      · rintro (⟨q, hq, hqid⟩ | hq)
        · exact Or.inl ⟨q, List.mem_cons_of_mem _ hq, hqid⟩
        · exact Or.inr hq
      · rintro (⟨q, hq, hqid⟩ | hq)
        · rcases List.mem_cons.mp hq with hq' | hq'
          · rw [hq'] at hqid
            exact absurd hqid hne
          · exact Or.inl ⟨q, hq', hqid⟩
        · exact Or.inr hq

/-- Claim C8: after demote followed by promote(d), every lease has a
finite expiry equal to `now + ttl + d` (each lease refreshed with
extension `d`), and the expiry queue contains exactly the ids of
`lease_map`.  The hypothesis says each stored lease record carries the id
it is keyed under, which grant guarantees. -/
theorem demote_promote_spec (c : LeaseCollection) (now d : Nat)
    (hwf : ∀ p ∈ c.lease_map, p.2.id = p.1) :
    (∀ p ∈ ((c.demote).promote now d).lease_map,
      p.2.expiry = some (now + p.2.ttl + d)) ∧
    (∀ id : Int, (alookup id ((c.demote).promote now d).expired_queue).isSome ↔
      (alookup id ((c.demote).promote now d).lease_map).isSome) := by
  constructor
  · intro p hp
    have : ((c.demote).promote now d).lease_map =
        (c.demote).lease_map.map
          (fun p => (p.1, { p.2 with expiry := some (now + p.2.ttl + d) })) := by
      simp [LeaseCollection.promote, promoteAux_fst]
    rw [this] at hp
    rcases List.mem_map.mp hp with ⟨q, _, hq⟩
    rw [← hq]
  · intro id
    have hq : ((c.demote).promote now d).expired_queue =
        (promoteAux now d (c.demote).lease_map []).2 := by
      simp [LeaseCollection.promote, LeaseCollection.demote]
    have hlm : ((c.demote).promote now d).lease_map =
        (c.demote).lease_map.map
          (fun p => (p.1, { p.2 with expiry := some (now + p.2.ttl + d) })) := by
      simp [LeaseCollection.promote, promoteAux_fst]
    have hdm : (c.demote).lease_map = c.lease_map.map (fun p => (p.1, p.2.forever)) := rfl
    have h1 : (alookup id ((c.demote).lease_map.map
        (fun p => (p.1, { p.2 with expiry := some (now + p.2.ttl + d) })))).isSome ↔
        (alookup id (c.demote).lease_map).isSome :=
      alookup_isSome_map_fst _ (fun p => rfl)
    have h2 : (alookup id (c.lease_map.map (fun p => (p.1, p.2.forever)))).isSome ↔
        (alookup id c.lease_map).isSome :=
      alookup_isSome_map_fst _ (fun p => rfl)
    rw [hq, promoteAux_snd, hlm, h1, hdm, h2]
    constructor
    · rintro (⟨p, hp, hpid⟩ | hfalse)
      · rcases List.mem_map.mp hp with ⟨q, hqm, hqp⟩
        rw [alookup_isSome_iff]
        refine ⟨q, hqm, ?_⟩
        have hid2 : p.2.id = q.2.id := by rw [← hqp]; rfl
        rw [← hwf q hqm, ← hid2, hpid]
      · simp [alookup] at hfalse
    · intro hsome
      rw [alookup_isSome_iff] at hsome
      rcases hsome with ⟨q, hqm, hq1⟩
      refine Or.inl ⟨(q.1, q.2.forever), List.mem_map.mpr ⟨q, hqm, rfl⟩, ?_⟩
      show q.2.forever.id = id
      have hfor : q.2.forever.id = q.2.id := rfl
      rw [hfor, hwf q hqm, hq1]

/-- Claim C8 witness: a two-lease collection (one forever, one enqueued)
after demote-promote. -/
theorem demote_promote_spec_witness :
    (∀ p ∈ (((⟨[(1, ⟨1, 10, 10, some 4, []⟩), (2, ⟨2, 7, 7, none, []⟩)], [], [(1, 4)]⟩ :
        LeaseCollection).demote).promote 20 3).lease_map,
      p.2.expiry = some (20 + p.2.ttl + 3)) ∧
    (∀ id : Int, (alookup id (((⟨[(1, ⟨1, 10, 10, some 4, []⟩), (2, ⟨2, 7, 7, none, []⟩)],
        [], [(1, 4)]⟩ : LeaseCollection).demote).promote 20 3).expired_queue).isSome ↔
      (alookup id (((⟨[(1, ⟨1, 10, 10, some 4, []⟩), (2, ⟨2, 7, 7, none, []⟩)], [],
        [(1, 4)]⟩ : LeaseCollection).demote).promote 20 3).lease_map).isSome) :=
  demote_promote_spec _ 20 3 (by decide)

/-- Claim C9: the after-sync phase of LeaseGrant returns the current
revision without advancing the counter, and the after-sync phase of a
LeaseRevoke of an existing lease with no attached keys removes the lease
record and also returns without advancing the revision. -/
theorem sync_preserves_revision (b : Backend) (is_leader : Bool) (now : Nat)
    (greq : LeaseGrantRequest) (rreq : LeaseRevokeRequest) (l : Lease)
    (hl : alookup rreq.id b.lc.lease_map = some l) (hkeys : l.keys = []) :
    (syncRequest b is_leader now (.leaseGrantRequest greq) =
      some (.ok b.revision, syncLeaseGrant b is_leader now greq) ∧
      (syncLeaseGrant b is_leader now greq).revision = b.revision) ∧
    (∃ b', syncRequest b is_leader now (.leaseRevokeRequest rreq) =
        some (.ok b.revision, b') ∧
      b'.revision = b.revision ∧ alookup rreq.id b'.lc.lease_map = none) := by
  constructor
  · exact ⟨rfl, rfl⟩
  · have key : syncRequest b is_leader now (.leaseRevokeRequest rreq) =
        some (.ok b.revision,
          Backend.mk (b.lc.revoke rreq.id).2 b.revision b.index b.kvTable
            (b.buffer ++ [WriteOp.deleteLease rreq.id]) b.sent b.indexCalls) := by
      simp only [syncRequest, syncLeaseRevoke, hl, hkeys, List.isEmpty_nil, if_true]
    exact ⟨_, key, rfl, by simp [LeaseCollection.revoke, alookup_aremove_self]⟩

/-- Claim C9 witness: a grant and an empty-keys revoke on a concrete
backend holding lease 1 with no keys, at revision 7. -/
theorem sync_preserves_revision_witness :
    (syncRequest (Backend.mk ⟨[(1, Lease.new 1 10)], [], []⟩ 7 [] [] [] [] [])
        true 0 (.leaseGrantRequest ⟨5, 2⟩) =
      some (.ok 7, syncLeaseGrant
        (Backend.mk ⟨[(1, Lease.new 1 10)], [], []⟩ 7 [] [] [] [] []) true 0 ⟨5, 2⟩) ∧
      (syncLeaseGrant (Backend.mk ⟨[(1, Lease.new 1 10)], [], []⟩ 7 [] [] [] [] [])
        true 0 ⟨5, 2⟩).revision = 7) ∧
    (∃ b', syncRequest (Backend.mk ⟨[(1, Lease.new 1 10)], [], []⟩ 7 [] [] [] [] [])
        true 0 (.leaseRevokeRequest ⟨1⟩) = some (.ok 7, b') ∧
      b'.revision = 7 ∧ alookup 1 b'.lc.lease_map = none) :=
  sync_preserves_revision (Backend.mk ⟨[(1, Lease.new 1 10)], [], []⟩ 7 [] [] [] [] [])
    true 0 ⟨5, 2⟩ ⟨1⟩ (Lease.new 1 10) rfl rfl

theorem qmin_eq_none {q : LeaseQueue} : qmin q = none ↔ q = [] := by
  cases q with
  | nil => simp [qmin]
  | cons p rest =>
    simp only [qmin]
    cases qmin rest <;> simp

theorem qmin_le {q : LeaseQueue} {m : Nat} (h : qmin q = some m) :
    ∀ p ∈ q, m ≤ p.2 := by
  induction q generalizing m with
  | nil => simp [qmin] at h
  | cons p rest ih =>
    intro p' hp'
    rw [qmin] at h
    rcases List.mem_cons.mp hp' with hh | hh
    · cases hrest : qmin rest with
      | none => rw [hrest] at h; injection h with h; rw [hh, ← h]
      | some m' =>
        rw [hrest] at h
        injection h with h
        rw [hh, ← h]
        exact min_le_left _ _
    · cases hrest : qmin rest with
      | none =>
        rw [qmin_eq_none.mp hrest] at hh
        simp at hh
      | some m' =>
        rw [hrest] at h
        injection h with h
        have := ih hrest p' hh
        rw [← h]
        exact le_trans (min_le_right _ _) this

theorem qmin_exists {q : LeaseQueue} {m : Nat} (h : qmin q = some m) :
    ∃ p ∈ q, p.2 = m := by
  induction q generalizing m with
  | nil => simp [qmin] at h
  | cons p rest ih =>
    rw [qmin] at h
    cases hrest : qmin rest with
    | none =>
      rw [hrest] at h
      injection h with h
      exact ⟨p, List.mem_cons_self _ _, h⟩
    | some m' =>
      rw [hrest] at h
      injection h with h
      rcases le_total p.2 m' with hle | hle
      · refine ⟨p, List.mem_cons_self _ _, ?_⟩
        rw [← h]
        exact (min_eq_left hle).symm
      · rcases ih hrest with ⟨p', hp', hp2⟩
        refine ⟨p', List.mem_cons_of_mem _ hp', ?_⟩
        rw [hp2, ← h]
        exact (min_eq_right hle).symm

theorem qpopAux_spec {m : Nat} {q : LeaseQueue} (h : ∃ p ∈ q, p.2 = m) :
    ∃ i q', qpopAux m q = (some i, q') ∧ q.Perm ((i, m) :: q') := by
  induction q with
  | nil => simp at h
  | cons p rest ih =>
    by_cases hp : p.2 = m
    · refine ⟨p.1, rest, ?_, ?_⟩
      · simp [qpopAux, hp]
      · have hpm : p = (p.1, m) := by
          cases p
          simp only [Prod.mk.injEq]
          exact ⟨trivial, hp⟩
        rw [← hpm]
    · have hrest : ∃ p' ∈ rest, p'.2 = m := by
        rcases h with ⟨p', hp', hp2⟩
        rcases List.mem_cons.mp hp' with hh | hh
        · rw [hh] at hp2; exact absurd hp2 hp
        · exact ⟨p', hh, hp2⟩
      rcases ih hrest with ⟨i, rest', hpop, hperm⟩
      refine ⟨i, p :: rest', ?_, ?_⟩
      · simp [qpopAux, hp, hpop]
      · exact (hperm.cons p).trans (List.Perm.swap _ _ _)

theorem qpop_spec {q : LeaseQueue} {m : Nat} (h : qmin q = some m) :
    ∃ i q', qpop q = (some i, q') ∧ q.Perm ((i, m) :: q') := by
  rw [qpop, h]
  exact qpopAux_spec (qmin_exists h)

theorem findExpiredAux_spec (lm : List (Int × Lease)) (now : Nat) :
    ∀ fuel q, q.length ≤ fuel →
      (∀ p ∈ (findExpiredAux lm now fuel q).2, now < p.2) ∧
      (∀ id, id ∈ (findExpiredAux lm now fuel q).1 ↔
        (∃ e, (id, e) ∈ q ∧ e ≤ now ∧ (alookup id lm).isSome)) := by
  intro fuel
  induction fuel with
  | zero =>
    intro q hq
    have : q = [] := List.length_eq_zero.mp (Nat.le_zero.mp hq)
    subst this
    constructor
    · intro p hp
      simp [findExpiredAux] at hp
    · intro id
      simp [findExpiredAux]
  | succ fuel ih =>
    intro q hq
    cases hpeek : qpeek q with
    | none =>
      have hnil : q = [] := qmin_eq_none.mp hpeek
      subst hnil
      constructor
      · intro p hp
        simp [findExpiredAux, qpeek, qmin] at hp
      · intro id
        simp [findExpiredAux, qpeek, qmin]
    | some e =>
      by_cases he : e ≤ now
      · rcases qpop_spec hpeek with ⟨i, q', hpop, hperm⟩
        have hlen : q'.length ≤ fuel := by
          have := hperm.length_eq
          simp at this
          omega
        have hstep : findExpiredAux lm now (fuel + 1) q =
            (if (alookup i lm).isSome then i :: (findExpiredAux lm now fuel q').1
              else (findExpiredAux lm now fuel q').1,
             (findExpiredAux lm now fuel q').2) := by
          simp only [findExpiredAux, hpeek, hpop, if_pos he]
        rcases ih q' hlen with ⟨ih1, ih2⟩
        rw [hstep]
        constructor
        · intro p hp
          exact ih1 p hp
        · intro id
          constructor
          · intro hid
            by_cases hsome : (alookup i lm).isSome
            · rw [if_pos hsome] at hid
              rcases List.mem_cons.mp hid with hh | hh
              · subst hh
                exact ⟨e, hperm.mem_iff.mpr (List.mem_cons_self _ _), he, hsome⟩
              · rcases (ih2 id).mp hh with ⟨e', hmem, he', hlk⟩
                exact ⟨e', hperm.mem_iff.mpr (List.mem_cons_of_mem _ hmem), he', hlk⟩
            · rw [if_neg hsome] at hid
              rcases (ih2 id).mp hid with ⟨e', hmem, he', hlk⟩
              exact ⟨e', hperm.mem_iff.mpr (List.mem_cons_of_mem _ hmem), he', hlk⟩
          · rintro ⟨e', hmem, he', hlk⟩
            rcases List.mem_cons.mp (hperm.mem_iff.mp hmem) with hh | hh
            · have hide : id = i ∧ e' = e := by
                have h1 := congrArg Prod.fst hh
                have h2 := congrArg Prod.snd hh
                exact ⟨h1, h2⟩
              rcases hide with ⟨hid1, _⟩
              subst hid1
              rw [if_pos hlk]
              exact List.mem_cons_self _ _
            · have : id ∈ (findExpiredAux lm now fuel q').1 :=
                (ih2 id).mpr ⟨e', hh, he', hlk⟩
              by_cases hsome : (alookup i lm).isSome
              · rw [if_pos hsome]
                exact List.mem_cons_of_mem _ this
              · rw [if_neg hsome]
                exact this
      · have hstep : findExpiredAux lm now (fuel + 1) q = ([], q) := by
          simp only [findExpiredAux, hpeek, if_neg he]
        rw [hstep]
        constructor
        · intro p hp
          have := qmin_le hpeek p hp
          omega
        · intro id
          simp only [List.not_mem_nil, false_iff]
          rintro ⟨e', hmem, he', _⟩
          have := qmin_le hpeek (id, e') hmem
          simp at this
          omega

theorem findExpiredAux_all_late {lm : List (Int × Lease)} {now : Nat}
    {fuel : Nat} {q : LeaseQueue} (h : ∀ p ∈ q, now < p.2) :
    (findExpiredAux lm now fuel q).1 = [] := by
  cases fuel with
  | zero => rfl
  | succ fuel =>
    cases hpeek : qpeek q with
    | none =>
      simp only [findExpiredAux, hpeek]
    | some e =>
      have hlt : now < e := by
        rcases qmin_exists hpeek with ⟨p, hp, hp2⟩
        have := h p hp
        omega
      have hne : ¬ e ≤ now := by omega
      simp only [findExpiredAux, hpeek, if_neg hne]

/-- Claim C6: `find_expired_leases` returns exactly the ids of queue
entries whose expiry is at or before `now` and which are still present in
`lease_map` (popped-but-revoked ids are discarded silently), and a second
call at the same instant returns the empty list. -/
theorem find_expired_leases_spec (c : LeaseCollection) (now : Nat) :
    (∀ id, id ∈ (c.find_expired_leases now).1 ↔
      (∃ e, (id, e) ∈ c.expired_queue ∧ e ≤ now ∧ (alookup id c.lease_map).isSome)) ∧
    (((c.find_expired_leases now).2.find_expired_leases now).1 = []) := by
  rcases findExpiredAux_spec c.lease_map now c.expired_queue.length c.expired_queue
    le_rfl with ⟨h1, h2⟩
  constructor
  · intro id
    exact h2 id
  · exact findExpiredAux_all_late h1

theorem pairsOf_map_fst (prevOf : Key → Revision) (rev : Int) :
    ∀ (ks : List Key) (sub : Int),
      (pairsOf prevOf rev sub ks).map (fun pr => pr.1) = ks.map prevOf := by
  intro ks
  induction ks with
  | nil => intro sub; rfl
  | cons k rest ih =>
    intro sub
    simp [pairsOf, ih]

theorem indexDeleteAll_spec (prevOf : Key → Revision) (rev : Int) :
    ∀ (ks : List Key) (idx : IndexMap) (sub : Int), ks.Nodup →
      (∀ k ∈ ks, alookup k idx = some (prevOf k)) →
      ∃ idx', indexDeleteAll idx rev ks sub =
        (some (pairsOf prevOf rev sub ks), idx', subRevCalls rev sub ks) := by
  intro ks
  induction ks with
  | nil =>
    intro idx sub _ _
    exact ⟨idx, rfl⟩
  | cons k rest ih =>
    intro idx sub hnd hlk
    have hk : alookup k idx = some (prevOf k) := hlk k (List.mem_cons_self _ _)
    have hknotin : k ∉ rest := (List.nodup_cons.mp hnd).1
    have hrest : ∀ k' ∈ rest, alookup k' (aremove k idx) = some (prevOf k') := by
      intro k' hk'
      have hne : k' ≠ k := fun hh => hknotin (hh ▸ hk')
      rw [alookup_aremove_ne hne]
      exact hlk k' (List.mem_cons_of_mem _ hk')
    rcases ih (aremove k idx) (sub + 1) (List.nodup_cons.mp hnd).2 hrest with ⟨idx', hIH⟩
    refine ⟨idx', ?_⟩
    simp only [indexDeleteAll, indexDelete, hk, hIH, pairsOf, subRevCalls]

theorem kvGetAll_map (table : List (Revision × KeyValue)) (prevOf : Key → Revision)
    (kvOf : Key → KeyValue) :
    ∀ ks : List Key, (∀ k ∈ ks, alookup (prevOf k) table = some (kvOf k)) →
      kvGetAll table (ks.map prevOf) = some (ks.map kvOf) := by
  intro ks
  induction ks with
  | nil => intro _; rfl
  | cons k rest ih =>
    intro h
    have hk : alookup (prevOf k) table = some (kvOf k) := h k (List.mem_cons_self _ _)
    have hrest := ih (fun k' hk' => h k' (List.mem_cons_of_mem _ hk'))
    simp only [List.map_cons, kvGetAll, hk, hrest]
    rfl

theorem alookup_amodify_isSome {κ α : Type} [DecidableEq κ] {k k' : κ} {f : α → α}
    {m : List (κ × α)} :
    (alookup k (amodify k' f m)).isSome = (alookup k m).isSome := by
  by_cases h : k = k'
  · subst h
    rw [alookup_amodify_self]
    cases alookup k m <;> rfl
  · rw [alookup_amodify_ne h]

theorem alookup_aremove_none {κ α : Type} [DecidableEq κ] {k k' : κ}
    {m : List (κ × α)} (h : alookup k m = none) :
    alookup k (aremove k' m) = none := by
  by_cases hk : k = k'
  · subst hk
    exact alookup_aremove_self
  · rw [alookup_aremove_ne hk]
    exact h

theorem detachAll_ok :
    ∀ (kvs : List KeyValue) (lc : LeaseCollection),
      (kvs.map (fun kv => kv.key)).Nodup →
      (∀ kv ∈ kvs, canDetach lc kv.key = true) →
      ∃ lc', detachAll lc kvs = (.ok (), lc') ∧
        (∀ id, (alookup id lc'.lease_map).isSome = (alookup id lc.lease_map).isSome) := by
  intro kvs
  induction kvs with
  | nil =>
    intro lc _ _
    exact ⟨lc, rfl, fun _ => rfl⟩
  | cons kv rest ih =>
    intro lc hnd hdet
    have hkv := hdet kv (List.mem_cons_self _ _)
    rw [canDetach] at hkv
    cases hitem : alookup kv.key lc.item_map with
    | none => rw [hitem] at hkv; simp at hkv
    | some lid =>
      rw [hitem] at hkv
      rcases Option.isSome_iff_exists.mp hkv with ⟨l, hlid⟩
      have hget : lc.get_lease kv.key = lid := by
        simp [LeaseCollection.get_lease, hitem]
      have hdetach : lc.detach lid kv.key = (.ok (),
          { lc with lease_map := amodify lid (fun x => x.removeKey kv.key) lc.lease_map,
                    item_map := aremove kv.key lc.item_map }) := by
        simp only [LeaseCollection.detach, hlid]
      have hnotin : kv.key ∉ rest.map (fun x => x.key) := (List.nodup_cons.mp hnd).1
      set lc1 : LeaseCollection :=
        { lc with lease_map := amodify lid (fun x => x.removeKey kv.key) lc.lease_map,
                  item_map := aremove kv.key lc.item_map } with hlc1
      have hdet1 : ∀ kv' ∈ rest, canDetach lc1 kv'.key = true := by
        intro kv' hkv'
        have hne : kv'.key ≠ kv.key := by
          intro hh
          exact hnotin (hh ▸ List.mem_map.mpr ⟨kv', hkv', rfl⟩)
        have := hdet kv' (List.mem_cons_of_mem _ hkv')
        rw [canDetach] at this ⊢
        rw [hlc1]
        simp only
        rw [alookup_aremove_ne hne]
        cases hit : alookup kv'.key lc.item_map with
        | none => rw [hit] at this; simp at this
        | some lid' =>
          rw [hit] at this
          have hsome : (alookup lid' lc.lease_map).isSome = true := this
          show (alookup lid'
            (amodify lid (fun x => x.removeKey kv.key) lc.lease_map)).isSome = true
          rw [alookup_amodify_isSome]
          exact hsome
      rcases ih lc1 (List.nodup_cons.mp hnd).2 hdet1 with ⟨lc', hrun, hiff⟩
      refine ⟨lc', ?_, ?_⟩
      · simp only [detachAll, hget, hdetach, hrun]
      · intro id
        rw [hiff id, hlc1]
        simp only
        exact alookup_amodify_isSome

/-- Claim C1: the after-sync phase of a LeaseRevoke whose lease exists
with at least one attached key advances the revision counter exactly once
(to `r = revision + 1`), issues exactly one index delete per attached key
with zero-based sub-revisions increasing in the keys' stored order, and
sends exactly one pair `(r, events)` on the watcher channel, where the
events carry one Delete entry per key whose new kv has `mod_revision = r`
and whose `prev_kv` is the prior key-value read back from the KV table.
The hypotheses say the state is well-formed: each key has a live index
head (`prevOf`), the KV table resolves it (`kvOf`), and each key can be
detached. -/
theorem lease_revoke_sync_events (b : Backend) (req : LeaseRevokeRequest) (l : Lease)
    (prevOf : Key → Revision) (kvOf : Key → KeyValue)
    (hl : alookup req.id b.lc.lease_map = some l)
    (hne : l.keys ≠ [])
    (hnd : l.keys.Nodup)
    (hidx : ∀ k ∈ l.keys, alookup k b.index = some (prevOf k))
    (hkv : ∀ k ∈ l.keys, alookup (prevOf k) b.kvTable = some (kvOf k))
    (hkey : ∀ k ∈ l.keys, (kvOf k).key = k)
    (hdet : ∀ k ∈ l.keys, canDetach b.lc k = true) :
    ∃ b', syncLeaseRevoke b req = some (.ok (), b') ∧
      b'.revision = b.revision + 1 ∧
      b'.indexCalls = b.indexCalls ++ subRevCalls (b.revision + 1) 0 l.keys ∧
      b'.sent = b.sent ++ [(b.revision + 1,
        l.keys.map (fun k => Event.mk EventType.delete
          (some { KeyValue.default with key := k, modRevision := b.revision + 1 })
          (some (kvOf k))))] := by
  have hempty : l.keys.isEmpty = false := by
    cases hk : l.keys with
    | nil => exact absurd hk hne
    | cons a as => rfl
  rcases indexDeleteAll_spec prevOf (b.revision + 1) l.keys b.index 0 hnd hidx with
    ⟨idx', hIDA⟩
  have hKGA : kvGetAll b.kvTable
      ((pairsOf prevOf (b.revision + 1) 0 l.keys).map (fun pr => pr.1)) =
      some (l.keys.map kvOf) := by
    rw [pairsOf_map_fst]
    exact kvGetAll_map b.kvTable prevOf kvOf l.keys hkv
  have hndkv : ((l.keys.map kvOf).map (fun kv => kv.key)).Nodup := by
    rw [List.map_map]
    have hcongr : l.keys.map (fun k => (kvOf k).key) = l.keys.map (fun k => k) :=
      List.map_congr_left (fun k hk => hkey k hk)
    show (l.keys.map (fun k => (kvOf k).key)).Nodup
    rw [hcongr, List.map_id_fun']
    exact hnd
  have hdetkv : ∀ kv ∈ l.keys.map kvOf, canDetach b.lc kv.key = true := by
    intro kv hkvm
    rcases List.mem_map.mp hkvm with ⟨k, hk, hkk⟩
    rw [← hkk, hkey k hk]
    exact hdet k hk
  rcases detachAll_ok (l.keys.map kvOf) b.lc hndkv hdetkv with ⟨lc', hDA, -⟩
  have hmain : syncLeaseRevoke b req = some (.ok (),
      Backend.mk ((lc'.revoke req.id).2) (b.revision + 1) idx' b.kvTable
        ((b.buffer ++ [WriteOp.deleteLease req.id]) ++
          (((l.keys.map kvOf).zip
              ((pairsOf prevOf (b.revision + 1) 0 l.keys).map (fun pr => pr.2))).map
            tombOf))
        (b.sent ++ [(b.revision + 1,
          (l.keys.map kvOf).map (delEventOf (b.revision + 1)))])
        (b.indexCalls ++ subRevCalls (b.revision + 1) 0 l.keys)) := by
    simp only [syncLeaseRevoke, hl, hempty, Bool.false_eq_true, if_false, hIDA, hKGA, hDA]
  refine ⟨_, hmain, rfl, rfl, ?_⟩
  show b.sent ++ [(b.revision + 1, _)] = b.sent ++ [(b.revision + 1, _)]
  have hev : (l.keys.map kvOf).map (delEventOf (b.revision + 1)) =
      l.keys.map (fun k => Event.mk EventType.delete
        (some { KeyValue.default with key := k, modRevision := b.revision + 1 })
        (some (kvOf k))) := by
    rw [List.map_map]
    apply List.map_congr_left
    intro k hk
    show delEventOf (b.revision + 1) (kvOf k) = _
    rw [delEventOf, hkey k hk]
  rw [hev]

/-- Claim C1 witness: revoking lease 1 with attached keys "a", "b" at
revision 7 produces index-delete calls with sub-revisions 0 and 1 in
attachment order and one watcher pair at revision 8. -/
theorem lease_revoke_sync_events_witness :
    ∃ b', syncLeaseRevoke (Backend.mk
        ⟨[(1, ⟨1, 10, 10, none, [[97], [98]]⟩)], [([97], 1), ([98], 1)], []⟩ 7
        [([97], ⟨3, 0⟩), ([98], ⟨4, 1⟩)]
        [(⟨3, 0⟩, ⟨[97], [118], 3, 3, 1, 1⟩), (⟨4, 1⟩, ⟨[98], [119], 4, 4, 1, 1⟩)]
        [] [] []) ⟨1⟩ = some (.ok (), b') ∧
      b'.revision = 7 + 1 ∧
      b'.indexCalls = [] ++ subRevCalls (7 + 1) 0 [[97], [98]] ∧
      b'.sent = [] ++ [(7 + 1, [[97], [98]].map (fun k => Event.mk EventType.delete
        (some { KeyValue.default with key := k, modRevision := 7 + 1 })
        (some ((fun k => if k = [97] then (⟨[97], [118], 3, 3, 1, 1⟩ : KeyValue)
          else ⟨[98], [119], 4, 4, 1, 1⟩) k))))] :=
  lease_revoke_sync_events
    (Backend.mk ⟨[(1, ⟨1, 10, 10, none, [[97], [98]]⟩)], [([97], 1), ([98], 1)], []⟩ 7
      [([97], ⟨3, 0⟩), ([98], ⟨4, 1⟩)]
      [(⟨3, 0⟩, ⟨[97], [118], 3, 3, 1, 1⟩), (⟨4, 1⟩, ⟨[98], [119], 4, 4, 1, 1⟩)] [] [] [])
    ⟨1⟩ ⟨1, 10, 10, none, [[97], [98]]⟩
    (fun k => if k = [97] then ⟨3, 0⟩ else ⟨4, 1⟩)
    (fun k => if k = [97] then ⟨[97], [118], 3, 3, 1, 1⟩ else ⟨[98], [119], 4, 4, 1, 1⟩)
    (by decide) (by decide) (by decide) (by decide) (by decide) (by decide) (by decide)

theorem canDetach_preserved {lc : LeaseCollection} {lid : Int} {key : Key} {k' : Key}
    (hne : k' ≠ key) (h : canDetach lc k' = true) :
    canDetach (LeaseCollection.mk (amodify lid (fun x => x.removeKey key) lc.lease_map)
      (aremove key lc.item_map) lc.expired_queue) k' = true := by
  rw [canDetach] at h ⊢
  simp only
  rw [alookup_aremove_ne hne]
  cases hit : alookup k' lc.item_map with
  | none => rw [hit] at h; simp at h
  | some lid' =>
    rw [hit] at h
    have hsome : (alookup lid' lc.lease_map).isSome = true := h
    show (alookup lid' (amodify lid (fun x => x.removeKey key) lc.lease_map)).isSome = true
    rw [alookup_amodify_isSome]
    exact hsome

theorem detachAll_error :
    ∀ (kvs₁ : List KeyValue) (kv₀ : KeyValue) (kvs₂ : List KeyValue) (lc : LeaseCollection),
      (((kvs₁ ++ kv₀ :: kvs₂).map (fun kv => kv.key))).Nodup →
      (∀ kv ∈ kvs₁, canDetach lc kv.key = true) →
      alookup kv₀.key lc.item_map = none →
      alookup 0 lc.lease_map = none →
      ∃ lc', detachAll lc (kvs₁ ++ kv₀ :: kvs₂) = (.error (.leaseNotFound 0), lc') ∧
        (∀ id, (alookup id lc'.lease_map).isSome = (alookup id lc.lease_map).isSome) := by
  intro kvs₁
  induction kvs₁ with
  | nil =>
    intro kv₀ kvs₂ lc _ _ hmiss hzero
    have hget0 : lc.get_lease kv₀.key = 0 := by
      simp [LeaseCollection.get_lease, hmiss]
    have hdet0 : lc.detach 0 kv₀.key = (.error (.leaseNotFound 0), lc) := by
      simp only [LeaseCollection.detach, hzero]
    refine ⟨lc, ?_, fun _ => rfl⟩
    simp only [List.nil_append, detachAll, hget0, hdet0]
  | cons kv rest ih =>
    intro kv₀ kvs₂ lc hnd hdet hmiss hzero
    have hkv := hdet kv (List.mem_cons_self _ _)
    rw [canDetach] at hkv
    cases hitem : alookup kv.key lc.item_map with
    | none => rw [hitem] at hkv; simp at hkv
    | some lid =>
      rw [hitem] at hkv
      have hlidsome : (alookup lid lc.lease_map).isSome = true := hkv
      rcases Option.isSome_iff_exists.mp hlidsome with ⟨l, hlid⟩
      have hget : lc.get_lease kv.key = lid := by
        simp [LeaseCollection.get_lease, hitem]
      have hlid0 : lid ≠ 0 := by
        intro hh
        rw [hh, hzero] at hlid
        exact Option.noConfusion hlid
      have hdetach : lc.detach lid kv.key = (.ok (),
          { lc with lease_map := amodify lid (fun x => x.removeKey kv.key) lc.lease_map,
                    item_map := aremove kv.key lc.item_map }) := by
        simp only [LeaseCollection.detach, hlid]
      set lc1 : LeaseCollection :=
        { lc with lease_map := amodify lid (fun x => x.removeKey kv.key) lc.lease_map,
                  item_map := aremove kv.key lc.item_map } with hlc1
      have hndtail : ((rest ++ kv₀ :: kvs₂).map (fun x => x.key)).Nodup := by
        have := hnd
        rw [List.cons_append, List.map_cons, List.nodup_cons] at this
        exact this.2
      have hnotin : kv.key ∉ (rest ++ kv₀ :: kvs₂).map (fun x => x.key) := by
        have := hnd
        rw [List.cons_append, List.map_cons, List.nodup_cons] at this
        exact this.1
      have hdet1 : ∀ kv' ∈ rest, canDetach lc1 kv'.key = true := by
        intro kv' hkv'
        have hne : kv'.key ≠ kv.key := by
          intro hh
          refine hnotin ?_
          rw [← hh]
          exact List.mem_map.mpr ⟨kv', List.mem_append_left _ hkv', rfl⟩
        exact canDetach_preserved hne (hdet kv' (List.mem_cons_of_mem _ hkv'))
      have hmiss1 : alookup kv₀.key lc1.item_map = none := by
        rw [hlc1]
        exact alookup_aremove_none hmiss
      have hzero1 : alookup 0 lc1.lease_map = none := by
        rw [hlc1]
        show alookup 0 (amodify lid (fun x => x.removeKey kv.key) lc.lease_map) = none
        rw [alookup_amodify_ne (fun hh => hlid0 hh.symm)]
        exact hzero
      rcases ih kv₀ kvs₂ lc1 hndtail hdet1 hmiss1 hzero1 with ⟨lc', hrun, hiff⟩
      refine ⟨lc', ?_, ?_⟩
      · have hstep : detachAll lc (kv :: (rest ++ kv₀ :: kvs₂)) =
            detachAll lc1 (rest ++ kv₀ :: kvs₂) := by
          simp only [detachAll, hget, hdetach]
        rw [List.cons_append, hstep, hrun]
      · intro id
        rw [hiff id, hlc1]
        simp only
        exact alookup_amodify_isSome

/-- Claim C10: during the after-sync of a LeaseRevoke with attached keys,
each prior key read back from the KV table is detached from whatever lease
`item_map` currently maps it to; if some such key is absent from
`item_map`, `get_lease` returns the sentinel 0, `detach(0, key)` fails
with lease-not-found(0), the after-sync returns that error, and the
revoked lease's record remains in `lease_map` even though the DeleteLease
write has been buffered and the index deletions (and the revision
increment) have already been issued, while nothing is sent to the
watchers. -/
theorem lease_revoke_detach_failure (b : Backend) (req : LeaseRevokeRequest) (l : Lease)
    (prevOf : Key → Revision) (kvOf : Key → KeyValue)
    (ks₁ : List Key) (k₀ : Key) (ks₂ : List Key)
    (hl : alookup req.id b.lc.lease_map = some l)
    (hks : l.keys = ks₁ ++ k₀ :: ks₂)
    (hnd : l.keys.Nodup)
    (hidx : ∀ k ∈ l.keys, alookup k b.index = some (prevOf k))
    (hkv : ∀ k ∈ l.keys, alookup (prevOf k) b.kvTable = some (kvOf k))
    (hkey : ∀ k ∈ l.keys, (kvOf k).key = k)
    (hdet1 : ∀ k ∈ ks₁, canDetach b.lc k = true)
    (hmiss : alookup k₀ b.lc.item_map = none)
    (hzero : alookup 0 b.lc.lease_map = none) :
    ∃ b', syncLeaseRevoke b req = some (.error (.leaseNotFound 0), b') ∧
      (alookup req.id b'.lc.lease_map).isSome ∧
      WriteOp.deleteLease req.id ∈ b'.buffer ∧
      b'.indexCalls = b.indexCalls ++ subRevCalls (b.revision + 1) 0 l.keys ∧
      b'.revision = b.revision + 1 ∧
      b'.sent = b.sent := by
  have hempty : l.keys.isEmpty = false := by
    rw [hks]
    cases ks₁ <;> rfl
  rcases indexDeleteAll_spec prevOf (b.revision + 1) l.keys b.index 0 hnd hidx with
    ⟨idx', hIDA⟩
  have hKGA : kvGetAll b.kvTable
      ((pairsOf prevOf (b.revision + 1) 0 l.keys).map (fun pr => pr.1)) =
      some (l.keys.map kvOf) := by
    rw [pairsOf_map_fst]
    exact kvGetAll_map b.kvTable prevOf kvOf l.keys hkv
  have hndkv : ((l.keys.map kvOf).map (fun kv => kv.key)).Nodup := by
    rw [List.map_map]
    have hcongr : l.keys.map (fun k => (kvOf k).key) = l.keys.map (fun k => k) :=
      List.map_congr_left (fun k hk => hkey k hk)
    show (l.keys.map (fun k => (kvOf k).key)).Nodup
    rw [hcongr, List.map_id_fun']
    exact hnd
  have hk₀mem : k₀ ∈ l.keys := by
    rw [hks]
    exact List.mem_append_right _ (List.mem_cons_self _ _)
  have hsplit : l.keys.map kvOf = ks₁.map kvOf ++ kvOf k₀ :: ks₂.map kvOf := by
    rw [hks, List.map_append, List.map_cons]
  have hnd' : (((ks₁.map kvOf ++ kvOf k₀ :: ks₂.map kvOf).map (fun kv => kv.key))).Nodup := by
    rw [← hsplit]
    exact hndkv
  have hdetkv : ∀ kv ∈ ks₁.map kvOf, canDetach b.lc kv.key = true := by
    intro kv hkvm
    rcases List.mem_map.mp hkvm with ⟨k, hk, hkk⟩
    have hkmem : k ∈ l.keys := by
      rw [hks]
      exact List.mem_append_left _ hk
    rw [← hkk, hkey k hkmem]
    exact hdet1 k hk
  have hmiss' : alookup (kvOf k₀).key b.lc.item_map = none := by
    rw [hkey k₀ hk₀mem]
    exact hmiss
  rcases detachAll_error (ks₁.map kvOf) (kvOf k₀) (ks₂.map kvOf) b.lc hnd' hdetkv
    hmiss' hzero with ⟨lc', hDAerr, hiff⟩
  have hDA : detachAll b.lc (l.keys.map kvOf) = (.error (.leaseNotFound 0), lc') := by
    rw [hsplit]
    exact hDAerr
  have hmain : syncLeaseRevoke b req = some (.error (.leaseNotFound 0),
      Backend.mk lc' (b.revision + 1) idx' b.kvTable
        (b.buffer ++ [WriteOp.deleteLease req.id]) b.sent
        (b.indexCalls ++ subRevCalls (b.revision + 1) 0 l.keys)) := by
    simp only [syncLeaseRevoke, hl, hempty, Bool.false_eq_true, if_false, hIDA, hKGA, hDA]
  refine ⟨_, hmain, ?_, ?_, rfl, rfl, rfl⟩
  · show (alookup req.id lc'.lease_map).isSome
    rw [hiff req.id, hl]
    rfl
  · show WriteOp.deleteLease req.id ∈ b.buffer ++ [WriteOp.deleteLease req.id]
    exact List.mem_append_right _ (List.mem_cons_self _ _)

/-- Claim C10 witness: revoking lease 1 whose attached key "a" is absent
from `item_map` fails with lease-not-found(0) after the DeleteLease write
and the index deletion have been issued, and lease 1 remains. -/
theorem lease_revoke_detach_failure_witness :
    ∃ b', syncLeaseRevoke (Backend.mk
        ⟨[(1, ⟨1, 10, 10, none, [[97]]⟩)], [], []⟩ 7 [([97], ⟨3, 0⟩)]
        [(⟨3, 0⟩, ⟨[97], [118], 3, 3, 1, 1⟩)] [] [] []) ⟨1⟩ =
      some (.error (.leaseNotFound 0), b') ∧
      (alookup 1 b'.lc.lease_map).isSome ∧
      WriteOp.deleteLease 1 ∈ b'.buffer ∧
      b'.indexCalls = [] ++ subRevCalls (7 + 1) 0 [[97]] ∧
      b'.revision = 7 + 1 ∧
      b'.sent = [] :=
  lease_revoke_detach_failure
    (Backend.mk ⟨[(1, ⟨1, 10, 10, none, [[97]]⟩)], [], []⟩ 7 [([97], ⟨3, 0⟩)]
      [(⟨3, 0⟩, ⟨[97], [118], 3, 3, 1, 1⟩)] [] [] [])
    ⟨1⟩ ⟨1, 10, 10, none, [[97]]⟩ (fun _ => ⟨3, 0⟩)
    (fun _ => ⟨[97], [118], 3, 3, 1, 1⟩) [] [97] []
    (by decide) (by decide) (by decide) (by decide) (by decide) (by decide)
    (by decide) (by decide) (by decide)

section NodupLemmas

variable {κ α : Type} [DecidableEq κ]

theorem not_mem_map_fst_aremove {k : κ} {m : List (κ × α)} :
    k ∉ (aremove k m).map (fun p => p.1) := by
  intro hmem
  rcases List.mem_map.mp hmem with ⟨p, hp, hpk⟩
  exact (mem_aremove_iff.mp hp).2 hpk

theorem nodup_fst_aremove {k : κ} {m : List (κ × α)}
    (h : (m.map (fun p => p.1)).Nodup) : ((aremove k m).map (fun p => p.1)).Nodup :=
  h.sublist map_fst_aremove_sublist

theorem nodup_fst_ainsert {k : κ} {v : α} {m : List (κ × α)}
    (h : (m.map (fun p => p.1)).Nodup) : ((ainsert k v m).map (fun p => p.1)).Nodup := by
  rw [ainsert, List.map_cons, List.nodup_cons]
  exact ⟨not_mem_map_fst_aremove, nodup_fst_aremove h⟩

theorem alookup_of_mem_nodup {p : κ × α} {m : List (κ × α)}
    (hnd : (m.map (fun p => p.1)).Nodup) (hp : p ∈ m) : alookup p.1 m = some p.2 := by
  induction m with
  | nil => simp at hp
  | cons q rest ih =>
    rw [List.map_cons, List.nodup_cons] at hnd
    rcases List.mem_cons.mp hp with hh | hh
    · rw [hh, alookup, if_pos rfl]
    · have hne : q.1 ≠ p.1 := by
        intro hq
        exact hnd.1 (hq ▸ List.mem_map.mpr ⟨p, hh, rfl⟩)
      rw [alookup, if_neg hne]
      exact ih hnd.2 hh

end NodupLemmas

theorem mem_keyErase_iff {x k : Key} {ks : List Key} :
    x ∈ keyErase k ks ↔ x ∈ ks ∧ x ≠ k := by
  induction ks with
  | nil => simp [keyErase]
  | cons y rest ih =>
    by_cases hy : y = k
    · rw [keyErase, if_pos hy, ih, List.mem_cons]
      constructor
      · rintro ⟨h1, h2⟩
        exact ⟨Or.inr h1, h2⟩
      · rintro ⟨h1 | h1, h2⟩
        · rw [h1, hy] at h2
          exact absurd rfl h2
        · exact ⟨h1, h2⟩
    · rw [keyErase, if_neg hy, List.mem_cons, List.mem_cons, ih]
      constructor
      · rintro (h1 | ⟨h1, h2⟩)
        · rw [h1]
          exact ⟨Or.inl rfl, fun hh => hy hh⟩
        · exact ⟨Or.inr h1, h2⟩
      · rintro ⟨h1 | h1, h2⟩
        · exact Or.inl h1
        · exact Or.inr ⟨h1, h2⟩

theorem mem_insertKey_iff {x k : Key} {l : Lease} :
    x ∈ (l.insertKey k).keys ↔ x ∈ l.keys ∨ x = k := by
  rw [Lease.insertKey]
  by_cases hk : k ∈ l.keys
  · rw [if_pos hk]
    constructor
    · exact Or.inl
    · rintro (h | h)
      · exact h
      · rw [h]; exact hk
  · rw [if_neg hk]
    show x ∈ l.keys ++ [k] ↔ _
    rw [List.mem_append, List.mem_singleton]

theorem insertKey_expiry {k : Key} {l : Lease} : (l.insertKey k).expiry = l.expiry := by
  rw [Lease.insertKey]
  split <;> rfl

theorem insertKey_ttl {k : Key} {l : Lease} : (l.insertKey k).ttl = l.ttl := by
  rw [Lease.insertKey]
  split <;> rfl

theorem removeKey_keys {k : Key} {l : Lease} :
    (l.removeKey k).keys = keyErase k l.keys := rfl

theorem insertKey_mem_self {k : Key} {l : Lease} : k ∈ (l.insertKey k).keys :=
  mem_insertKey_iff.mpr (Or.inr rfl)

theorem invLC_insert_fresh (c : LeaseCollection) (id : Int) (l : Lease) (q' : LeaseQueue)
    (hid : id ≠ 0) (habs : alookup id c.lease_map = none)
    (hkeys : l.keys = [])
    (hqnd : (q'.map (fun p => p.1)).Nodup)
    (hqself : l.expiry.isSome → (alookup id q').isSome)
    (hqmono : ∀ j : Int, (alookup j c.expired_queue).isSome → (alookup j q').isSome)
    (hfresh5 : ∀ e, l.expiry = some e → ∃ t, e = t + l.ttl)
    (hInv : InvLC c) :
    InvLC ⟨ainsert id l c.lease_map, c.item_map, q'⟩ := by
  constructor
  · exact nodup_fst_ainsert hInv.nk_lm
  · exact hInv.nk_im
  · exact hqnd
  · intro p hp
    rcases List.mem_cons.mp hp with hh | hh
    · rw [hh]
      exact hid
    · exact hInv.inv1 p (mem_aremove_iff.mp hh).1
  · intro p hp
    rcases hInv.inv2 p hp with ⟨l', h1, h2⟩
    have hne : p.2 ≠ id := by
      intro hh
      rw [hh, habs] at h1
      exact Option.noConfusion h1
    refine ⟨l', ?_, h2⟩
    rw [alookup_ainsert_ne hne]
    exact h1
  · intro p hp k hk
    rcases List.mem_cons.mp hp with hh | hh
    · rw [hh] at hk
      simp only [hkeys] at hk
      simp at hk
    · exact hInv.inv3 p (mem_aremove_iff.mp hh).1 k hk
  · intro p hp hexp
    rcases List.mem_cons.mp hp with hh | hh
    · rw [hh] at hexp ⊢
      exact hqself hexp
    · rcases mem_aremove_iff.mp hh with ⟨hmem, _⟩
      exact hqmono p.1 (hInv.inv4 p hmem hexp)
  · intro p hp e he
    rcases List.mem_cons.mp hp with hh | hh
    · rw [hh] at he ⊢
      exact hfresh5 e he
    · exact hInv.inv5 p (mem_aremove_iff.mp hh).1 e he

theorem invLC_grant (is_leader : Bool) (c : LeaseCollection) (id ttl : Int) (now : Nat)
    (hInv : InvLC c) (hid : id ≠ 0) (habs : alookup id c.lease_map = none) :
    InvLC (c.grant id ttl is_leader now).2 := by
  cases is_leader
  · have hstep : (c.grant id ttl false now).2 =
        ⟨ainsert id ((Lease.new id (max ttl MIN_LEASE_TTL).toNat).forever) c.lease_map,
          c.item_map, c.expired_queue⟩ := rfl
    rw [hstep]
    refine invLC_insert_fresh c id _ _ hid habs rfl hInv.nk_q ?_ ?_ ?_ hInv
    · intro h
      simp [Lease.forever, Lease.new] at h
    · intro j h
      exact h
    · intro e he
      simp [Lease.forever, Lease.new] at he
  · have hstep : (c.grant id ttl true now).2 =
        ⟨ainsert id (((Lease.new id (max ttl MIN_LEASE_TTL).toNat).refresh now 0).1)
            c.lease_map,
          c.item_map,
          ainsert id (now + (max ttl MIN_LEASE_TTL).toNat + 0) c.expired_queue⟩ := rfl
    rw [hstep]
    refine invLC_insert_fresh c id _ _ hid habs rfl
      (nodup_fst_ainsert hInv.nk_q) ?_ ?_ ?_ hInv
    · intro _
      rw [alookup_ainsert_self]
      rfl
    · intro j h
      by_cases hj : j = id
      · rw [hj, alookup_ainsert_self]
        rfl
      · rw [alookup_ainsert_ne hj]
        exact h
    · intro e he
      simp only [Lease.refresh, Lease.new] at he ⊢
      injection he with he
      exact ⟨now, by omega⟩

theorem invLC_revoke (c : LeaseCollection) (id : Int) (l : Lease)
    (hl : alookup id c.lease_map = some l) (hkeys : l.keys = [])
    (hInv : InvLC c) : InvLC (c.revoke id).2 := by
  have hstep : (c.revoke id).2 = ⟨aremove id c.lease_map, c.item_map, c.expired_queue⟩ := rfl
  rw [hstep]
  constructor
  · exact nodup_fst_aremove hInv.nk_lm
  · exact hInv.nk_im
  · exact hInv.nk_q
  · intro p hp
    exact hInv.inv1 p (mem_aremove_iff.mp hp).1
  · intro p hp
    rcases hInv.inv2 p hp with ⟨l', h1, h2⟩
    have hne : p.2 ≠ id := by
      intro hh
      rw [hh, hl] at h1
      injection h1 with h1
      rw [← h1, hkeys] at h2
      simp at h2
    refine ⟨l', ?_, h2⟩
    rw [alookup_aremove_ne hne]
    exact h1
  · intro p hp k hk
    exact hInv.inv3 p (mem_aremove_iff.mp hp).1 k hk
  · intro p hp hexp
    exact hInv.inv4 p (mem_aremove_iff.mp hp).1 hexp
  · intro p hp e he
    exact hInv.inv5 p (mem_aremove_iff.mp hp).1 e he

theorem fst_amodify_entry {κ α : Type} [DecidableEq κ] (k : κ) (f : α → α)
    {p q : κ × α} (hpq : p = if q.1 = k then (q.1, f q.2) else q) : p.1 = q.1 := by
  rw [hpq]
  split <;> rfl

theorem invLC_attach (c : LeaseCollection) (id : Int) (k : Key) (l : Lease)
    (hl : alookup id c.lease_map = some l) (habs : alookup k c.item_map = none)
    (hInv : InvLC c) : InvLC (c.attach id k).2 := by
  have hstep : (c.attach id k).2 =
      ⟨amodify id (fun x => x.insertKey k) c.lease_map, ainsert k id c.item_map,
        c.expired_queue⟩ := by
    simp only [LeaseCollection.attach, hl]
  rw [hstep]
  constructor
  · rw [map_fst_amodify]
    exact hInv.nk_lm
  · exact nodup_fst_ainsert hInv.nk_im
  · exact hInv.nk_q
  · intro p hp
    have hp' : p ∈ amodify id (fun x => x.insertKey k) c.lease_map := hp
    rcases mem_amodify hp' with ⟨q, hq, hpq⟩
    rw [fst_amodify_entry id (fun x => x.insertKey k) hpq]
    exact hInv.inv1 q hq
  · intro p hp
    rcases List.mem_cons.mp hp with hh | hh
    · rw [hh]
      refine ⟨l.insertKey k, ?_, insertKey_mem_self⟩
      show alookup id (amodify id (fun x => x.insertKey k) c.lease_map) =
        some (l.insertKey k)
      rw [alookup_amodify_self, hl]
      rfl
    · rcases mem_aremove_iff.mp hh with ⟨hmem, hnk⟩
      rcases hInv.inv2 p hmem with ⟨l', h1, h2⟩
      by_cases hpid : p.2 = id
      · have hll : l' = l := by
          rw [hpid, hl] at h1
          injection h1 with h1
          exact h1.symm
        refine ⟨l.insertKey k, ?_, ?_⟩
        · rw [hpid]
          show alookup id (amodify id (fun x => x.insertKey k) c.lease_map) =
            some (l.insertKey k)
          rw [alookup_amodify_self, hl]
          rfl
        · rw [← hll]
          exact mem_insertKey_iff.mpr (Or.inl h2)
      · refine ⟨l', ?_, h2⟩
        show alookup p.2 (amodify id (fun x => x.insertKey k) c.lease_map) = some l'
        rw [alookup_amodify_ne hpid]
        exact h1
  · intro p hp k' hk'
    have hp' : p ∈ amodify id (fun x => x.insertKey k) c.lease_map := hp
    rcases mem_amodify hp' with ⟨q, hq, hpq⟩
    have hp1 : p.1 = q.1 := fst_amodify_entry id (fun x => x.insertKey k) hpq
    by_cases hq1 : q.1 = id
    · rw [if_pos hq1] at hpq
      have hq2 : q.2 = l := by
        have := alookup_of_mem_nodup hInv.nk_lm hq
        rw [hq1, hl] at this
        injection this with this
        exact this.symm
      rw [hpq] at hk'
      simp only at hk'
      rw [hq2] at hk'
      rcases mem_insertKey_iff.mp hk' with hmem | heq
      · have hk'ne : k' ≠ k := by
          intro hh
          have := hInv.inv3 q hq k' (by rw [hq2]; exact hmem)
          rw [hh, habs] at this
          exact Option.noConfusion this
        have hold := hInv.inv3 q hq k' (by rw [hq2]; exact hmem)
        show alookup k' (ainsert k id c.item_map) = some p.1
        rw [alookup_ainsert_ne hk'ne, hold, hp1]
      · rw [heq]
        show alookup k (ainsert k id c.item_map) = some p.1
        rw [alookup_ainsert_self, hp1, hq1]
    · rw [if_neg hq1] at hpq
      rw [hpq] at hk'
      have hold := hInv.inv3 q hq k' hk'
      have hk'ne : k' ≠ k := by
        intro hh
        rw [hh, habs] at hold
        exact Option.noConfusion hold
      show alookup k' (ainsert k id c.item_map) = some p.1
      rw [alookup_ainsert_ne hk'ne, hold, hp1]
  · intro p hp hexp
    have hp' : p ∈ amodify id (fun x => x.insertKey k) c.lease_map := hp
    rcases mem_amodify hp' with ⟨q, hq, hpq⟩
    have hexp' : q.2.expiry.isSome := by
      rw [hpq] at hexp
      by_cases hq1 : q.1 = id
      · rw [if_pos hq1] at hexp
        simp only at hexp
        rw [insertKey_expiry] at hexp
        exact hexp
      · rw [if_neg hq1] at hexp
        exact hexp
    show (alookup p.1 c.expired_queue).isSome
    rw [fst_amodify_entry id (fun x => x.insertKey k) hpq]
    exact hInv.inv4 q hq hexp'
  · intro p hp e he
    have hp' : p ∈ amodify id (fun x => x.insertKey k) c.lease_map := hp
    rcases mem_amodify hp' with ⟨q, hq, hpq⟩
    by_cases hq1 : q.1 = id
    · rw [hpq, if_pos hq1] at he ⊢
      simp only at he ⊢
      rw [insertKey_expiry] at he
      rw [insertKey_ttl]
      exact hInv.inv5 q hq e he
    · rw [hpq, if_neg hq1] at he ⊢
      exact hInv.inv5 q hq e he

theorem invLC_detach (c : LeaseCollection) (id : Int) (k : Key) (l : Lease)
    (hl : alookup id c.lease_map = some l) (hitem : alookup k c.item_map = some id)
    (hInv : InvLC c) : InvLC (c.detach id k).2 := by
  have hstep : (c.detach id k).2 =
      ⟨amodify id (fun x => x.removeKey k) c.lease_map, aremove k c.item_map,
        c.expired_queue⟩ := by
    simp only [LeaseCollection.detach, hl]
  rw [hstep]
  constructor
  · rw [map_fst_amodify]
    exact hInv.nk_lm
  · exact nodup_fst_aremove hInv.nk_im
  · exact hInv.nk_q
  · intro p hp
    have hp' : p ∈ amodify id (fun x => x.removeKey k) c.lease_map := hp
    rcases mem_amodify hp' with ⟨q, hq, hpq⟩
    rw [fst_amodify_entry id (fun x => x.removeKey k) hpq]
    exact hInv.inv1 q hq
  · intro p hp
    rcases mem_aremove_iff.mp hp with ⟨hmem, hnk⟩
    rcases hInv.inv2 p hmem with ⟨l', h1, h2⟩
    by_cases hpid : p.2 = id
    · have hll : l' = l := by
        rw [hpid, hl] at h1
        injection h1 with h1
        exact h1.symm
      refine ⟨l.removeKey k, ?_, ?_⟩
      · rw [hpid]
        show alookup id (amodify id (fun x => x.removeKey k) c.lease_map) =
          some (l.removeKey k)
        rw [alookup_amodify_self, hl]
        rfl
      · rw [removeKey_keys]
        exact mem_keyErase_iff.mpr ⟨by rw [← hll]; exact h2, hnk⟩
    · refine ⟨l', ?_, h2⟩
      show alookup p.2 (amodify id (fun x => x.removeKey k) c.lease_map) = some l'
      rw [alookup_amodify_ne hpid]
      exact h1
  · intro p hp k' hk'
    have hp' : p ∈ amodify id (fun x => x.removeKey k) c.lease_map := hp
    rcases mem_amodify hp' with ⟨q, hq, hpq⟩
    have hp1 : p.1 = q.1 := fst_amodify_entry id (fun x => x.removeKey k) hpq
    by_cases hq1 : q.1 = id
    · rw [if_pos hq1] at hpq
      rw [hpq] at hk'
      simp only at hk'
      rw [removeKey_keys] at hk'
      rcases mem_keyErase_iff.mp hk' with ⟨hmem, hne⟩
      have hold := hInv.inv3 q hq k' hmem
      show alookup k' (aremove k c.item_map) = some p.1
      rw [alookup_aremove_ne hne, hold, hp1]
    · rw [if_neg hq1] at hpq
      rw [hpq] at hk'
      have hold := hInv.inv3 q hq k' hk'
      have hk'ne : k' ≠ k := by
        intro hh
        rw [hh, hitem] at hold
        injection hold with hold
        exact hq1 hold.symm
      show alookup k' (aremove k c.item_map) = some p.1
      rw [alookup_aremove_ne hk'ne, hold, hp1]
  · intro p hp hexp
    have hp' : p ∈ amodify id (fun x => x.removeKey k) c.lease_map := hp
    rcases mem_amodify hp' with ⟨q, hq, hpq⟩
    have hexp' : q.2.expiry.isSome := by
      rw [hpq] at hexp
      by_cases hq1 : q.1 = id
      · rw [if_pos hq1] at hexp
        exact hexp
      · rw [if_neg hq1] at hexp
        exact hexp
    show (alookup p.1 c.expired_queue).isSome
    rw [fst_amodify_entry id (fun x => x.removeKey k) hpq]
    exact hInv.inv4 q hq hexp'
  · intro p hp e he
    have hp' : p ∈ amodify id (fun x => x.removeKey k) c.lease_map := hp
    rcases mem_amodify hp' with ⟨q, hq, hpq⟩
    by_cases hq1 : q.1 = id
    · rw [hpq, if_pos hq1] at he ⊢
      exact hInv.inv5 q hq e he
    · rw [hpq, if_neg hq1] at he ⊢
      exact hInv.inv5 q hq e he

theorem invLC_step (is_leader : Bool) (c : LeaseCollection) (op : LCOp)
    (hInv : InvLC c) (hpre : preOp c op = true) : InvLC (stepOp is_leader c op) := by
  cases op with
  | grantOp id ttl now =>
    have hpre' : (id != 0 && (alookup id c.lease_map).isNone) = true := hpre
    rw [Bool.and_eq_true] at hpre'
    rcases hpre' with ⟨h1, h2⟩
    have hid : id ≠ 0 := by
      intro hh
      rw [hh] at h1
      simp at h1
    exact invLC_grant is_leader c id ttl now hInv hid (Option.isNone_iff_eq_none.mp h2)
  | revokeOp id =>
    cases hlk : alookup id c.lease_map with
    | none =>
      rw [preOp, hlk] at hpre
      simp at hpre
    | some l =>
      rw [preOp, hlk] at hpre
      have hpre' : l.keys.isEmpty = true := hpre
      have hkeys : l.keys = [] := by
        cases hk : l.keys with
        | nil => rfl
        | cons a as =>
          rw [hk] at hpre'
          simp at hpre'
      exact invLC_revoke c id l hlk hkeys hInv
  | attachOp id k =>
    have hpre' : ((alookup id c.lease_map).isSome &&
        (alookup k c.item_map).isNone) = true := hpre
    rw [Bool.and_eq_true] at hpre'
    rcases hpre' with ⟨h1, h2⟩
    rcases Option.isSome_iff_exists.mp h1 with ⟨l, hl⟩
    exact invLC_attach c id k l hl (Option.isNone_iff_eq_none.mp h2) hInv
  | detachOp id k =>
    cases hit : alookup k c.item_map with
    | none =>
      rw [preOp, hit] at hpre
      simp at hpre
    | some j =>
      rw [preOp, hit] at hpre
      have hpre' : (j == id && (alookup id c.lease_map).isSome) = true := hpre
      rw [Bool.and_eq_true] at hpre'
      rcases hpre' with ⟨h1, h2⟩
      have hj : j = id := by simpa using h1
      rcases Option.isSome_iff_exists.mp h2 with ⟨l, hl⟩
      refine invLC_detach c id k l hl ?_ hInv
      rw [← hj]
      exact hit

theorem followerInv_step (c : LeaseCollection) (op : LCOp) (hF : FollowerInv c) :
    FollowerInv (stepOp false c op) := by
  cases op with
  | grantOp id ttl now =>
    constructor
    · intro p hp
      have hp' : p ∈ (id, (Lease.new id (max ttl MIN_LEASE_TTL).toNat).forever) ::
          aremove id c.lease_map := hp
      rcases List.mem_cons.mp hp' with hh | hh
      · rw [hh]
        rfl
      · exact hF.1 p (mem_aremove_iff.mp hh).1
    · exact hF.2
  | revokeOp id =>
    constructor
    · intro p hp
      have hp' : p ∈ aremove id c.lease_map := hp
      exact hF.1 p (mem_aremove_iff.mp hp').1
    · exact hF.2
  | attachOp id k =>
    cases hlk : alookup id c.lease_map with
    | none =>
      have hstep : stepOp false c (.attachOp id k) = c := by
        show (c.attach id k).2 = c
        simp only [LeaseCollection.attach, hlk]
      rw [hstep]
      exact hF
    | some l =>
      have hstep : stepOp false c (.attachOp id k) =
          ⟨amodify id (fun x => x.insertKey k) c.lease_map, ainsert k id c.item_map,
            c.expired_queue⟩ := by
        show (c.attach id k).2 = _
        simp only [LeaseCollection.attach, hlk]
      rw [hstep]
      constructor
      · intro p hp
        have hp' : p ∈ amodify id (fun x => x.insertKey k) c.lease_map := hp
        rcases mem_amodify hp' with ⟨q, hq, hpq⟩
        have hfq := hF.1 q hq
        rw [hpq]
        by_cases hq1 : q.1 = id
        · rw [if_pos hq1]
          show (q.2.insertKey k).expiry = none
          rw [insertKey_expiry]
          exact hfq
        · rw [if_neg hq1]
          exact hfq
      · exact hF.2
  | detachOp id k =>
    cases hlk : alookup id c.lease_map with
    | none =>
      have hstep : stepOp false c (.detachOp id k) = c := by
        show (c.detach id k).2 = c
        simp only [LeaseCollection.detach, hlk]
      rw [hstep]
      exact hF
    | some l =>
      have hstep : stepOp false c (.detachOp id k) =
          ⟨amodify id (fun x => x.removeKey k) c.lease_map, aremove k c.item_map,
            c.expired_queue⟩ := by
        show (c.detach id k).2 = _
        simp only [LeaseCollection.detach, hlk]
      rw [hstep]
      constructor
      · intro p hp
        have hp' : p ∈ amodify id (fun x => x.removeKey k) c.lease_map := hp
        rcases mem_amodify hp' with ⟨q, hq, hpq⟩
        have hfq := hF.1 q hq
        rw [hpq]
        by_cases hq1 : q.1 = id
        · rw [if_pos hq1]
          exact hfq
        · rw [if_neg hq1]
          exact hfq
      · exact hF.2

theorem invLC_runOps (is_leader : Bool) :
    ∀ (ops : List LCOp) (c : LeaseCollection), InvLC c →
      opsOk is_leader c ops = true → InvLC (runOps is_leader c ops) := by
  intro ops
  induction ops with
  | nil =>
    intro c h _
    exact h
  | cons op rest ih =>
    intro c hInv hok
    rw [opsOk, Bool.and_eq_true] at hok
    exact ih _ (invLC_step is_leader c op hInv hok.1) hok.2

theorem followerInv_runOps :
    ∀ (ops : List LCOp) (c : LeaseCollection), FollowerInv c →
      FollowerInv (runOps false c ops) := by
  intro ops
  induction ops with
  | nil =>
    intro c h
    exact h
  | cons op rest ih =>
    intro c hF
    exact ih _ (followerInv_step c op hF)

theorem invLC_new : InvLC LeaseCollection.new := by
  constructor <;> simp [LeaseCollection.new]

/-- Claim C2 counterexample: the contract-respecting sequence grant(1, 10)
as leader then revoke(1) leaves id 1 in the expiry queue although it is no
longer in `lease_map`, so queue membership does not equal the set of
finitely-expiring ids of `lease_map` (invariant 4 as stated fails). -/
theorem lease_collection_invariants_cex :
    opsOk true LeaseCollection.new [LCOp.grantOp 1 10 0, LCOp.revokeOp 1] = true ∧
    (alookup 1 (runOps true LeaseCollection.new
      [LCOp.grantOp 1 10 0, LCOp.revokeOp 1]).expired_queue).isSome = true ∧
    alookup 1 (runOps true LeaseCollection.new
      [LCOp.grantOp 1 10 0, LCOp.revokeOp 1]).lease_map = none := by
  decide

/-- Claim C2 (amended): for every contract-respecting sequence of grant,
revoke, attach, detach from the empty collection, after each operation the
well-formedness invariants hold: non-zero ids (1), the reverse index is
sound (2) and complete — for every key in `lease_map[id].keys`,
`item_map[key] = id` (3), every finitely-expiring lease is present in the
expiry queue — but the queue may additionally retain stale ids of revoked
leases, which `find_expired_leases` discards (weakened 4), every finite
expiry lies `ttl` beyond some refresh instant (5); and on a follower every
lease has expiry "never" and the queue is empty (6). -/
theorem lease_collection_invariants (is_leader : Bool) (ops : List LCOp)
    (h : opsOk is_leader LeaseCollection.new ops = true) :
    InvLC (runOps is_leader LeaseCollection.new ops) ∧
    (is_leader = false → FollowerInv (runOps is_leader LeaseCollection.new ops)) := by
  constructor
  · exact invLC_runOps is_leader ops LeaseCollection.new invLC_new h
  · intro hf
    subst hf
    refine followerInv_runOps ops LeaseCollection.new ⟨?_, rfl⟩
    intro p hp
    simp [LeaseCollection.new] at hp

/-- Claim C2 witness: a grant-attach-detach-revoke sequence as leader
satisfying all preconditions. -/
theorem lease_collection_invariants_witness :
    InvLC (runOps true LeaseCollection.new
      [LCOp.grantOp 1 10 0, LCOp.attachOp 1 [97], LCOp.detachOp 1 [97],
        LCOp.revokeOp 1]) ∧
    ((true : Bool) = false → FollowerInv (runOps true LeaseCollection.new
      [LCOp.grantOp 1 10 0, LCOp.attachOp 1 [97], LCOp.detachOp 1 [97],
        LCOp.revokeOp 1])) :=
  lease_collection_invariants true
    [LCOp.grantOp 1 10 0, LCOp.attachOp 1 [97], LCOp.detachOp 1 [97], LCOp.revokeOp 1]
    (by decide)
